import Mathlib

/-!
# Verification of the rir bytecode compiler and interpreter core

This file is a shallow embedding, in Lean 4, of the core data model and
operations of the rir bytecode compiler (`src/rir/src/ir/Compiler.cpp`) and
stack-based interpreter (`src/rir/src/interpreter/interp.c`).

Modelling conventions:
* Host `SEXP` values are modelled by the inductive type `RVal`.  Pointer
  identity of the interned singletons `R_TrueValue`, `R_FalseValue` and
  `R_LogicalNAValue` is modelled by giving them their own constructors,
  distinct from freshly allocated logical vectors (`RVal.lglV`).
* `NA` entries of logical/integer vectors are `Option.none`; real (`double`)
  vector entries are modelled as rationals (`Rat`), with `none` for `NA_REAL`.
* Reference counting (`NAMED`, `SET_NAMED`, `INCREMENT_NAMED`), the GC
  (`PROTECT`/`UNPROTECT`) and the visibility flag `R_Visible` have no bearing
  on any claim below and are not modelled.
* C `assert` failures and C undefined behaviour (stack underflow, typed
  accessors on values of the wrong type) are modelled as explicit error
  results, so that a run that trips one of them never "completes normally".
* The byte-addressed instruction stream of a `Code` object is modelled as a
  `List` of decoded instructions; jump offsets are measured in instructions
  (relative to the instruction after the jump), not bytes.
-/

namespace Rir

/-- `SEXPTYPE` tags, as used by `TYPEOF` in the interpreter.  `RAWSXP` is
the type of the raw-byte context stores the loop instructions allocate;
`RIRCODESXP` stands for the bogus type tag 31 that rir `Code` objects carry
when they leak onto the stack as first-class values (`push_code_`). -/
inductive SexpType where
  | NILSXP | SYMSXP | LISTSXP | CLOSXP | ENVSXP | PROMSXP | LANGSXP
  | SPECIALSXP | BUILTINSXP | LGLSXP | INTSXP | REALSXP | STRSXP | VECSXP
  | RAWSXP | RIRCODESXP
deriving DecidableEq, Repr

mutual

/-- Model of host `SEXP` values, with just enough structure for the core.
`trueV`, `falseV`, `naLglV` are the interned singletons `R_TrueValue`,
`R_FalseValue`, `R_LogicalNAValue`: they are logical scalars, but a freshly
allocated logical vector with the same contents (`lglV [...]`) is a different
value, reflecting pointer inequality.  A promise (`promV`) carries its cached
value `PRVALUE` (`PrVal.unset` when unset) and the value `pforce` that the
host's `forcePromise` routine would produce for it; `forcePromise` itself is
a host callback outside the core.  Closures, specials, builtins and
environments are opaque ids.  `langV` is a `LANGSXP` pairlist (call AST):
head function plus tagged argument cells.  `cntxtV` is the `RAWSXP` store a
`beginloop_` pushes (holding the saved pc, as the source stores `*oldPc` next
to the `RCNTXT`); `codeV` a rir `Code` object pushed as a first-class value;
`closureV` a closure built by `close_` from its formals and body (its
`CLOENV` is the machine environment, which is not itself a value here). -/
inductive RVal where
  | trueV
  | falseV
  | naLglV
  | lglV (xs : List (Option Bool))
  | intV (xs : List (Option Int))
  | realV (xs : List (Option Rat))
  | strV (xs : List String)
  | nilV
  | symV (s : String)
  | langV (fn : RVal) (args : RArgs)
  | vecV (xs : RVals)
  | pairListV (xs : RVals)
  | promV (pval : PrVal) (pforce : RVal)
  | closV (id : Nat)
  | specialV (id : Nat)
  | builtinV (id : Nat)
  | envV (id : Nat)
  | missingArgV
  | unboundV
  | cntxtV (savedPc : Nat)
  | codeV (i : Nat)
  | closureV (formals : RVal) (body : RVal)
deriving DecidableEq, Repr

/-- The cached `PRVALUE` slot of a promise: `unset` models
`R_UnboundValue`/NULL, `set v` a promise already forced to `v`. -/
inductive PrVal where
  | unset
  | set (v : RVal)
deriving DecidableEq, Repr

/-- A list of values (elements of a `VECSXP` or `LISTSXP`). -/
inductive RVals where
  | nil
  | cons (v : RVal) (rest : RVals)
deriving DecidableEq, Repr

/-- The argument cells of a `LANGSXP`: each cell is a `CAR` value plus an
optional `TAG` name. -/
inductive RArgs where
  | nil
  | cons (car : RVal) (tag : Option String) (rest : RArgs)
deriving DecidableEq, Repr

end

namespace RVals

/-- Number of cells. -/
def length : RVals → Nat
  | .nil => 0
  | .cons _ rest => rest.length + 1

end RVals

namespace RArgs

/-- Number of argument cells. -/
def length : RArgs → Nat
  | .nil => 0
  | .cons _ _ rest => rest.length + 1

/-- `CAR` of the first cell (`CADR` of the enclosing call), if any. -/
def car? : RArgs → Option RVal
  | .nil => none
  | .cons v _ _ => some v

end RArgs

namespace RVal

/-- `TYPEOF`.  `R_MissingArg` and `R_UnboundValue` are symbols in GNU-R. -/
def rTypeof : RVal → SexpType
  | trueV | falseV | naLglV | lglV _ => .LGLSXP
  | intV _ => .INTSXP
  | realV _ => .REALSXP
  | strV _ => .STRSXP
  | nilV => .NILSXP
  | symV _ => .SYMSXP
  | langV _ _ => .LANGSXP
  | vecV _ => .VECSXP
  | pairListV _ => .LISTSXP
  | promV _ _ => .PROMSXP
  | closV _ => .CLOSXP
  | specialV _ => .SPECIALSXP
  | builtinV _ => .BUILTINSXP
  | envV _ => .ENVSXP
  | missingArgV | unboundV => .SYMSXP
  | cntxtV _ => .RAWSXP
  | codeV _ => .RIRCODESXP
  | closureV _ _ => .CLOSXP

/-- `Rf_length`: 0 for nil, the element count for vectors and pairlists
(a `LANGSXP` counts its head), 1 for everything else. -/
def rLength : RVal → Nat
  | nilV => 0
  | trueV | falseV | naLglV => 1
  | lglV xs => xs.length
  | intV xs => xs.length
  | realV xs => xs.length
  | strV xs => xs.length
  | vecV xs => xs.length
  | pairListV xs => xs.length
  | langV _ args => args.length + 1
  | _ => 1

/-- `isLogical`: `TYPEOF(x) == LGLSXP`. -/
def isLogicalV (v : RVal) : Bool := v.rTypeof = .LGLSXP

end RVal

open RVal

/-- How R's `StringTrue` table converts a character element to logical. -/
def str2logical (s : String) : Option Bool :=
  if s = "T" ∨ s = "TRUE" ∨ s = "true" ∨ s = "True" then some true
  else if s = "F" ∨ s = "FALSE" ∨ s = "false" ∨ s = "False" then some false
  else none

/-- Modelled from the spec: the host primitive `Rf_asLogical` (the host
runtime's value representation and primitive library are outside the core
source).  First element of a logical/integer/real/character vector converted
to logical, `NA` (`none`) when empty, `NA`-valued or not interpretable. -/
def asLogicalR : RVal → Option Bool
  | trueV => some true
  | falseV => some false
  | naLglV => none
  | lglV xs => (xs.head?).getD none
  | intV xs =>
    match xs.head? with
    | some (some i) => some (i ≠ 0)
    | _ => none
  | realV xs =>
    match xs.head? with
    | some (some q) => some (q ≠ 0)
    | _ => none
  | strV xs =>
    match xs.head? with
    | some s => str2logical s
    | _ => none
  | _ => none

/-- `LOGICAL(v)[0]`: reading the first slot of a logical vector.  `none`
models the C undefined behaviour of applying `LOGICAL` to a non-logical
value or reading past the end. -/
def lgl0 : RVal → Option (Option Bool)
  | trueV => some (some true)
  | falseV => some (some false)
  | naLglV => some none
  | lglV (x :: _) => some x
  | _ => none

/-- Error outcomes of instruction execution.  `rError` carries the message of
an `Rf_error`/`errorcall`; `assertFail` models a failed C `assert`;
`stackUnderflow` and `typeError` model C undefined behaviour;
`nonLocalExit` marks a host callback exiting non-locally past the current
`evalRirCode` frame (an R error, a non-local return, or a `break`/`next`
whose target loop context lies in an outer frame), so the frame does not
complete normally. -/
inductive RError where
  | rError (msg : String)
  | assertFail
  | stackUnderflow
  | typeError
  | badPc
  | nonLocalExit
deriving DecidableEq, Repr

/-! ## Individual instructions of the interpreter (`interp.c`)

Each `ins` function takes the value stack (head = top of stack, `ostack_top`)
and returns either an error or the new stack (plus emitted warnings where the
source can warn). -/

/-- The warning text of `ins_asbool_` for conditions of length > 1. -/
def lengthWarnMsg : String :=
  "the condition has length > 1 and only the first element will be used"

/-- The `cond` value computed by `ins_asbool_`: stays `NA_LOGICAL` for empty
operands; for `LGLSXP` it is `LOGICAL(t)[0]`; the `INTSXP` case falls through
(missing `break`) into the `default` case, so every non-logical type goes
through `asLogical`. -/
def asboolCond (t : RVal) : Option Bool :=
  if t.rLength > 0 then
    match t.rTypeof with
    | .LGLSXP => (lgl0 t).getD none
    | _ => asLogicalR t
  else none

/-- `ins_asbool_` (interp.c): warn when the condition has length > 1, compute
`cond`, raise a typed error when `cond` is `NA_LOGICAL`, otherwise replace the
operand with the interned `R_TrueValue`/`R_FalseValue`. -/
def ins_asbool (stack : List RVal) : Except RError (List String × List RVal) :=
  match stack with
  | [] => .error .stackUnderflow
  | t :: rest =>
    let warns := if t.rLength > 1 then [lengthWarnMsg] else []
    match asboolCond t with
    | none =>
      let msg :=
        if t.rLength > 0 then
          if t.isLogicalV then "missing value where TRUE/FALSE needed"
          else "argument is not interpretable as logical"
        else "argument is of length zero"
      .error (.rError msg)
    | some b => .ok (warns, (if b then RVal.trueV else RVal.falseV) :: rest)

/-- `ins_lgl_or_` (interp.c): pop `x2` then `x1`, push `TRUE` when either is
1, `FALSE` when both are 0, `NA` otherwise (always the interned values). -/
def ins_lgl_or (stack : List RVal) : Except RError (List RVal) :=
  match stack with
  | t2 :: t1 :: rest =>
    match lgl0 t1, lgl0 t2 with
    | some x1, some x2 =>
      if x1 = some true ∨ x2 = some true then .ok (RVal.trueV :: rest)
      else if x1 = some false ∧ x2 = some false then .ok (RVal.falseV :: rest)
      else .ok (RVal.naLglV :: rest)
    | _, _ => .error .typeError
  | _ => .error .stackUnderflow

/-- `ins_lgl_and_` (interp.c): pop `x2` then `x1`, push `TRUE` when both are
1, `FALSE` when either is 0, `NA` otherwise (always the interned values). -/
def ins_lgl_and (stack : List RVal) : Except RError (List RVal) :=
  match stack with
  | t2 :: t1 :: rest =>
    match lgl0 t1, lgl0 t2 with
    | some x1, some x2 =>
      if x1 = some true ∧ x2 = some true then .ok (RVal.trueV :: rest)
      else if x1 = some false ∨ x2 = some false then .ok (RVal.falseV :: rest)
      else .ok (RVal.naLglV :: rest)
    | _, _ => .error .typeError
  | _ => .error .stackUnderflow

/-- Result of a branch instruction: the new program counter (an instruction
index) and the new stack.  `pc` is the index of the branch instruction
itself; as in the source, the offset is relative to the point just past the
instruction, so the no-jump successor is `pc + 1` and the jump target is
`pc + 1 + offset`. -/
def branchTarget (pc : Nat) (offset : Int) : Int := (pc : Int) + 1 + offset

/-- `ins_brtrue_` (interp.c): pop; jump iff the popped value is pointer-equal
to the interned `R_TrueValue`. -/
def ins_brtrue (offset : Int) (pc : Nat) (stack : List RVal) :
    Except RError (Int × List RVal) :=
  match stack with
  | v :: rest =>
    .ok (if v = RVal.trueV then branchTarget pc offset else (pc : Int) + 1, rest)
  | [] => .error .stackUnderflow

/-- `ins_brfalse_` (interp.c): pop; jump iff the popped value is pointer-equal
to the interned `R_FalseValue`. -/
def ins_brfalse (offset : Int) (pc : Nat) (stack : List RVal) :
    Except RError (Int × List RVal) :=
  match stack with
  | v :: rest =>
    .ok (if v = RVal.falseV then branchTarget pc offset else (pc : Int) + 1, rest)
  | [] => .error .stackUnderflow

/-! ## Environments and variable lookup -/

/-- A chained environment: a frame of symbol-to-value bindings plus a parent;
the chain ends at the empty environment.  Environments are host objects; this
is the standard chained-mapping semantics the spec's data model describes. -/
inductive REnv where
  | empty
  | ext (frame : List (String × RVal)) (parent : REnv)

/-- Look a symbol up in a single frame. -/
def lookupFrame (frame : List (String × RVal)) (s : String) : Option RVal :=
  match frame with
  | [] => none
  | (n, v) :: rest => if n = s then some v else lookupFrame rest s

/-- Modelled from the spec: the host environment primitive `findVar` (the
spec's host-runtime contract): walk the chain, returning `R_UnboundValue`
when the symbol is bound nowhere. -/
def findVarR (s : String) : REnv → RVal
  | .empty => .unboundV
  | .ext frame parent =>
    match lookupFrame frame s with
    | some v => v
    | none => findVarR s parent

/-- `promiseValue` (interp.c): if the promise has a cached value return it
(the source also locks its `NAMED` indicator, which is not modelled),
otherwise invoke the host's `forcePromise`, whose result is the promise's
`pforce` field. -/
def promiseValueR (pval : PrVal) (pforce : RVal) : RVal :=
  match pval with
  | .set v => v
  | .unset => pforce

/-- `ins_ldvar_` (interp.c): `findVar` the symbol; `R_UnboundValue` errors
with "object not found", `R_MissingArg` errors with the missing-argument
message, a promise is forced via `promiseValue`, and the resulting value is
pushed. -/
def ins_ldvar (s : String) (env : REnv) (stack : List RVal) :
    Except RError (List RVal) :=
  let val := findVarR s env
  if val = RVal.unboundV then
    .error (.rError "object not found")
  else if val = RVal.missingArgV then
    .error (.rError ("argument \"" ++ s ++ "\" is missing, with no default"))
  else
    let pushed :=
      match val with
      | .promV pv pf => promiseValueR pv pf
      | v => v
    .ok (pushed :: stack)

/-- `ins_isspecial_` (interp.c): `findVar` the symbol and `assert` that the
binding is a `SPECIALSXP` or `BUILTINSXP`; there is no fallback path — any
other binding trips the assertion.  The stack is untouched. -/
def ins_isspecial (s : String) (env : REnv) (stack : List RVal) :
    Except RError (List RVal) :=
  let val := findVarR s env
  if val.rTypeof = SexpType.SPECIALSXP ∨ val.rTypeof = SexpType.BUILTINSXP then
    .ok stack
  else
    .error .assertFail

/-! ## The `add_` / `sub_` fast paths -/

/-- `ins_add_` (interp.c): the handler opens with `assert(false)`, so every
execution of the `add_` opcode trips the assertion before reaching the
scalar-real fast path below it. -/
def ins_add (_stack : List RVal) : Except RError (List RVal) :=
  .error .assertFail

/-- `ins_sub_` (interp.c): like `add_`, the handler opens with
`assert(false)`. -/
def ins_sub (_stack : List RVal) : Except RError (List RVal) :=
  .error .assertFail

/-- The code that follows the `assert(false)` in `ins_add_`: pop `rhs` then
`lhs`; for a pair of scalar reals push a fresh scalar real holding the sum;
any other shape reaches `NOT_IMPLEMENTED` (another `assert(false)`) — the
commented-out builtin fallback is not present in the source. -/
def ins_add_after_assert (stack : List RVal) : Except RError (List RVal) :=
  match stack with
  | rhs :: lhs :: rest =>
    match lhs, rhs with
    | .realV [a], .realV [b] =>
      let sum := match a, b with
        | some x, some y => some (x + y)
        | _, _ => none
      .ok (RVal.realV [sum] :: rest)
    | _, _ => .error .assertFail
  | _ => .error .stackUnderflow

/-- The code that follows the `assert(false)` in `ins_sub_`: as for `add_`
but pushing the difference. -/
def ins_sub_after_assert (stack : List RVal) : Except RError (List RVal) :=
  match stack with
  | rhs :: lhs :: rest =>
    match lhs, rhs with
    | .realV [a], .realV [b] =>
      let diff := match a, b with
        | some x, some y => some (x - y)
        | _, _ => none
      .ok (RVal.realV [diff] :: rest)
    | _, _ => .error .assertFail
  | _ => .error .stackUnderflow

/-! ## The remaining pure stack instructions -/

/-- `ins_pop_` (interp.c). -/
def ins_pop (stack : List RVal) : Except RError (List RVal) :=
  match stack with
  | _ :: rest => .ok rest
  | [] => .error .stackUnderflow

/-- `ins_dup_` (interp.c): push `ostack_top`. -/
def ins_dup (stack : List RVal) : Except RError (List RVal) :=
  match stack with
  | v :: rest => .ok (v :: v :: rest)
  | [] => .error .stackUnderflow

/-- `ins_dup2_` (interp.c): push `ostack_at 1` then `ostack_at 0`. -/
def ins_dup2 (stack : List RVal) : Except RError (List RVal) :=
  match stack with
  | x0 :: x1 :: rest => .ok (x0 :: x1 :: x0 :: x1 :: rest)
  | _ => .error .stackUnderflow

/-- `ins_swap_` (interp.c): pop `a`, pop `b`, push `a`, push `b`. -/
def ins_swap (stack : List RVal) : Except RError (List RVal) :=
  match stack with
  | x0 :: x1 :: rest => .ok (x1 :: x0 :: rest)
  | _ => .error .stackUnderflow

/-- `ins_pick_` (interp.c): move the element at depth `i` to the top,
shifting the elements above it down. -/
def ins_pick (i : Nat) (stack : List RVal) : Except RError (List RVal) :=
  match stack.get? i with
  | some v => .ok (v :: stack.eraseIdx i)
  | none => .error .stackUnderflow

/-- `ins_put_` (interp.c): move the top element down to depth `i`, shifting
the elements it passes up (the inverse of `pick`). -/
def ins_put (i : Nat) (stack : List RVal) : Except RError (List RVal) :=
  match stack with
  | x :: rest =>
    if i ≤ rest.length then .ok (rest.take i ++ x :: rest.drop i)
    else .error .stackUnderflow
  | [] => .error .stackUnderflow

/-- `ins_is_` (interp.c): pop and push the interned `TRUE`/`FALSE` of the
type test; `VECSXP` also matches `LISTSXP`, `LISTSXP` also matches `NILSXP`;
any immediate other than the five handled types trips `assert(false)`. -/
def ins_is (t : SexpType) (stack : List RVal) : Except RError (List RVal) :=
  match stack with
  | test :: rest =>
    match t with
    | .NILSXP | .LGLSXP | .REALSXP =>
      .ok ((if test.rTypeof = t then RVal.trueV else RVal.falseV) :: rest)
    | .VECSXP =>
      .ok ((if test.rTypeof = .VECSXP ∨ test.rTypeof = .LISTSXP then RVal.trueV
            else RVal.falseV) :: rest)
    | .LISTSXP =>
      .ok ((if test.rTypeof = .LISTSXP ∨ test.rTypeof = .NILSXP then RVal.trueV
            else RVal.falseV) :: rest)
    | _ => .error .assertFail
  | [] => .error .stackUnderflow

/-! ## Method dispatch (`doDispatch`, interp.c) -/

/-- Is a value callable by `doCall`'s switch (closure, builtin or special)? -/
def isFunVal : RVal → Bool
  | .closV _ | .closureV _ _ | .specialV _ | .builtinV _ => true
  | _ => false

/-- Modelled from the spec: the host environment primitive `findFun` (the
spec's host-runtime contract): like `findVar` but it forces promise bindings
and skips bindings that are not functions, so that variables do not shadow
functions. -/
def findFunR (s : String) : REnv → RVal
  | .empty => .unboundV
  | .ext frame parent =>
    match lookupFrame frame s with
    | some v =>
      let v := match v with
        | .promV pv pf => promiseValueR pv pf
        | w => w
      if isFunVal v then v else findFunR s parent
    | none => findFunR s parent

/-- The host services `doDispatch` consults, bundled as data so that the
dispatch protocol itself can be stated over every possible host behaviour:
`isS4obj` is `IS_S4_OBJECT(obj)`, `hasMethods` is `R_has_methods(selector)`,
`possibleDispatch` the result of `R_possible_dispatch` (`none` = no S4 method
applied), `usemethodRes` the result of `Rf_usemethod` (`none` = S3 lookup
failed), and `applyRes f` the value the host produces when the fallback
callee `f` is invoked on the argument list (covering the special, builtin
and closure invocation paths of the final switch). -/
structure DispatchHost where
  isS4obj : Bool
  hasMethods : Bool
  possibleDispatch : Option RVal
  usemethodRes : Option RVal
  applyRes : RVal → RVal

/-- The dispatch mechanisms of `doDispatch`, in source order. -/
inductive Mech where
  | s4 | s3 | fallback
deriving DecidableEq, Repr

/-- `doDispatch` (interp.c): S4 first (only when the object is S4 and the
selector has methods), then S3 via `Rf_usemethod`, then `findFun` plus a
normal invocation.  The returned `List Mech` records, in order, the
mechanisms that were attempted; the `do { ... break; ... } while(false)`
structure of the source means a success breaks out and skips the rest.
`findFun` yielding `R_UnboundValue`/`R_MissingArg` or a non-callable hits an
`assert(false)`. -/
def doDispatchR (env : REnv) (selector : String) (h : DispatchHost) :
    Except RError (RVal × List Mech) :=
  let s4attempted := h.isS4obj && h.hasMethods
  let s4res : Option RVal := if s4attempted then h.possibleDispatch else none
  match s4res with
  | some res => .ok (res, [Mech.s4])
  | none =>
    let tried := if s4attempted then [Mech.s4, Mech.s3] else [Mech.s3]
    match h.usemethodRes with
    | some res => .ok (res, tried)
    | none =>
      let callee := findFunR selector env
      if callee = RVal.unboundV then .error .assertFail
      else if callee = RVal.missingArgV then .error .assertFail
      else if isFunVal callee then
        .ok (h.applyRes callee, tried ++ [Mech.fallback])
      else .error .assertFail

/-! ## Complex-assignment placeholders (`doCallStack`, interp.c) -/

/-- The placeholder sentinels `symbol::getterPlaceholder` and
`symbol::setterPlaceholder`.  Their definition site (`R/Symbols.h`) is not
part of the core source; all that matters is that they are two distinct
interned symbols that cannot occur in user code. -/
def getterPlaceholder : RVal := .symV "*.getterPlaceholder.*"

/-- See `getterPlaceholder`. -/
def setterPlaceholder : RVal := .symV "*.setterPlaceholder.*"

/-- The `value` tag attached to the rewritten setter argument
(`R_valueSym`). -/
def valueTag : String := "value"

/-- Wrapping performed on a substituted stack value: a `LANGSXP` or `SYMSXP`
is wrapped in `quote(...)` so that it is not evaluated again. -/
def quoteWrap (v : RVal) : RVal :=
  if v.rTypeof = SexpType.LANGSXP ∨ v.rTypeof = SexpType.SYMSXP then
    .langV (.symV "quote") (.cons v none .nil)
  else v

/-- Replace the last argument cell by a fresh cell holding `v` tagged
`value`, as `SETCDR(prev, CONS_NR(val, R_NilValue))` does after the walk to
the last cell.  On an empty list the source's walk would not type-check the
call shape; it cannot be reached because the guard requires a first cell. -/
def setLastValueCell (args : RArgs) (v : RVal) : RArgs :=
  match args with
  | .nil => .nil
  | .cons _ _ .nil => .cons v (some valueTag) .nil
  | .cons car tag rest => .cons car tag (setLastValueCell rest v)

/-- `CAR` of the last cell. -/
def lastCar : RArgs → Option RVal
  | .nil => none
  | .cons v _ .nil => some v
  | .cons _ _ rest => lastCar rest

/-- The AST-rewriting prologue of `doCallStack` (interp.c, the placeholder
hack): with `nargs` arguments above the callee on the stack (head = top), if
the callee is a special or a closure and `CADR(call)` is the getter or setter
placeholder, shallow-duplicate `call`, replace its first argument with the
on-stack target (`ostack_at(ctx, nargs - 1)`, i.e. the deepest of the
`nargs` arguments), and for a setter also replace the last argument cell with
a fresh cell holding `ostack_top` tagged `value`; each substituted value is
`quote`-wrapped when it is a language or symbol node.  Any other callee or
call shape leaves the call untouched.  (`escape`, which un-leaks rir code
objects, is the identity here since code objects are not modelled as stack
values.) -/
def doCallStackRewrite (call : RVal) (nargs : Nat) (stack : List RVal) :
    Except RError RVal :=
  match stack.get? nargs with
  | none => .error .stackUnderflow
  | some callee =>
    match call with
    | .langV fn args =>
      if (callee.rTypeof = SexpType.SPECIALSXP ∨ callee.rTypeof = SexpType.CLOSXP) ∧
          (args.car? = some getterPlaceholder ∨ args.car? = some setterPlaceholder) then
        let setter := args.car? = some setterPlaceholder
        if nargs = 0 then .error .stackUnderflow
        else
          match stack.get? (nargs - 1) with
          | none => .error .stackUnderflow
          | some target =>
            let target := quoteWrap target
            match args with
            | .nil => .error .assertFail
            | .cons _ tag rest =>
              let args := RArgs.cons target tag rest
              if setter then
                if lastCar args = some setterPlaceholder then
                  match stack with
                  | [] => .error .stackUnderflow
                  | v :: _ =>
                    .ok (.langV fn (setLastValueCell args (quoteWrap v)))
                else .error .assertFail
              else .ok (.langV fn args)
      else .ok call
    | _ => .ok call

/-! ## The interpreter main loop (`evalRirCode`, interp.c)

The machine below covers the full instruction dispatch of `evalRirCode`:
every opcode of the `switch`, including the loads, the calls, the loop
context instructions `beginloop_`/`endcontext_` and the `SETJMP` handler
inside `beginloop_` that receives non-local `break`/`next` jumps.

Host callbacks that leave the frame (`doCall`, `doCallStack`'s callee
invocation, `doDispatch`, `do_subset_dflt`/`do_subset2_dflt`) are modelled
by a `Host` oracle: each invocation either returns a value normally, or
exits non-locally.  The oracle convention that a normal return leaves the
caller's stack exactly as the instruction handler left it is the
discipline the source itself enforces: every such call site snapshots
`ostack_length` in a `RirContext` and `restoreCont`s it, and
`rirCallClosure` asserts `stackguard_size_before == stackguard_size_after`
around `rirCallTrampoline`.  A non-local `break`/`next` lands at the
`SETJMP` of the innermost loop context of this frame (`doLongjmp` below,
mirroring the handler at the end of `beginloop_`); when this frame has no
loop context the jump unwinds past `evalRirCode` altogether, as an R error
(`unwind`) also does, and the frame never completes normally.

Pool reads (`readConst`, `getSrcForCall`, `codeAt`) are modelled as
immediate operands on the decoded instruction; `R_Visible`, `NAMED` and
the GC are not modelled, except that `MAYBE_SHARED` / attribute queries
feed decisions and are drawn from the oracle.  Warnings emitted by
`ins_asbool_` do not affect the machine state and are dropped here. -/

/-- Outcome of one host callback invocation (a `doCall`/`doCallStack`/
`doDispatch` callee or a subsetting fallback): a normal return with a
result value, a non-local `CTXT_BREAK` or `CTXT_NEXT` longjmp, or an exit
that unwinds past this `evalRirCode` frame (an R error, a non-local
return, or a `break`/`next` whose target loop lies in an outer frame). -/
inductive HostOut where
  | ok (v : RVal)
  | ljBreak
  | ljNext
  | unwind
deriving DecidableEq, Repr

/-- The host services the dispatch loop consults, bundled as data so the
machine is a function of an arbitrary host behaviour.  `call n` is the
outcome of the `n`-th host callback invocation of this frame (calls are
numbered in execution order); `isObj` is `Rf_isObject` (the attribute bit
is not part of `RVal`); `maybeShared` is `MAYBE_SHARED` (the `NAMED`
field is not modelled); `namesAttr v` says whether
`getAttrib(v, R_NamesSymbol)` is non-nil and `anyAttr v` whether
`ATTRIB(v)` is non-nil (for `IS_SIMPLE_SCALAR`); `astOf` reads the source
AST of a promise (`PRCODE`, through `cp_pool_at` for rir code bodies). -/
structure Host where
  call : Nat → HostOut
  isObj : RVal → Bool
  maybeShared : RVal → Bool
  namesAttr : RVal → Bool
  anyAttr : RVal → Bool
  astOf : RVal → RVal

/-- Decoded instructions of `evalRirCode`'s dispatch loop, one constructor
per opcode of the `switch`.  Pool constants (`readConst`), promise code
offsets and the source ASTs attached by `getSrcForCall` appear as
immediate operands of the decoded instruction.  `call_`'s promise-index
and names operands only parametrise the host callback and carry no
machine-visible data, so they are not repeated here; `dispatch_`'s
argument operands likewise.  Jump offsets are in instructions, relative
to the next instruction. -/
inductive Instr where
  | push (v : RVal)
  | ldfun (s : String)
  | ldvar (s : String)
  | ldddvar (n : Nat)
  | callI
  | callStack (nargs : Nat) (call : RVal)
  | dispatchI (selector : String)
  | promiseI (pforce : RVal)
  | pushCode (i : Nat)
  | close
  | force
  | pop
  | asast
  | stvar (s : String)
  | asbool
  | brobj (off : Int)
  | endcontext
  | brtrue (off : Int)
  | brfalse (off : Int)
  | br (off : Int)
  | dup
  | add
  | sub
  | lt
  | swap
  | put (n : Nat)
  | pick (n : Nat)
  | isI (t : SexpType)
  | isspecial (s : String)
  | isfun
  | inc
  | dup2
  | testBounds
  | invisible
  | extract1
  | subset1
  | uniq
  | aslogical
  | lglAnd
  | lglOr
  | beginloop (off : Int)
  | ret
deriving DecidableEq, Repr

/-- Machine state of one `evalRirCode` frame: program counter (instruction
index), value stack (head = `ostack_top`), the environment `env` (mutated
by `stvar_`), the frame's loop-context chain (innermost first: each entry
is the pc of the `beginloop_` that pushed it together with the
`ostack_length` it stored in `cntxt->cenddata`), and the number of host
callback invocations made so far (indexing the `Host.call` oracle). -/
structure MState where
  pc : Nat
  stack : List RVal
  env : REnv
  chain : List (Nat × Nat)
  hcount : Nat

/-- One dispatch-loop iteration either steps to a new state, terminates at
`ret_` (yielding the stack as it stands when `ret_` executes, before
`evalRirCode`'s final `ostack_pop`), or stops without completing normally
(error, failed assert, UB, or an exit unwinding past the frame). -/
inductive StepRes where
  | next (s : MState)
  | done (stackAtRet : List RVal)
  | err (e : RError)

/-- `ins_ldfun_` (interp.c): `findFun` the symbol; `R_UnboundValue` and
`R_MissingArg` trip asserts, a closure is (possibly) jitted — a host
action with no machine-visible effect — and specials/builtins pass; any
other binding raises "attempt to apply non-function".  The value is
pushed. -/
def ins_ldfun (s : String) (env : REnv) (stack : List RVal) :
    Except RError (List RVal) :=
  let val := findFunR s env
  if val = RVal.unboundV then .error .assertFail
  else if val = RVal.missingArgV then .error .assertFail
  else
    match val.rTypeof with
    | .CLOSXP | .SPECIALSXP | .BUILTINSXP => .ok (val :: stack)
    | _ => .error (.rError "attempt to apply non-function")

/-- Element lookup in a value list. -/
def RVals.get? : RVals → Nat → Option RVal
  | .nil, _ => none
  | .cons v _, 0 => some v
  | .cons _ rest, n + 1 => rest.get? n

/-- Modelled from the spec: the host primitive `Rf_ddfindVar` for the
symbol `..n`: look `...` up via `findVar`; when bound, a list of length at
least `n` yields its `n`-th element (1-based), a shorter one raises "the
... list does not contain n elements"; an unbound `...` raises the
incorrect-context error.  Reading a cell of a non-list `...` binding is
undefined behaviour. -/
def ddfindVarR (n : Nat) (env : REnv) : Except RError RVal :=
  let vl := findVarR "..." env
  if vl = RVal.unboundV then
    .error (.rError "..n used in an incorrect context, no ... to look in")
  else if n ≤ vl.rLength then
    match vl with
    | .pairListV xs =>
      match xs.get? (n - 1) with
      | some v => .ok v
      | none => .error .typeError
    | _ => .error .typeError
  else .error (.rError "the ... list does not contain n elements")

/-- `ins_ldddvar_` (interp.c): `Rf_ddfindVar` the `..n` symbol, then the
same unbound/missing checks and promise forcing as `ins_ldvar_`, and
push. -/
def ins_ldddvar (n : Nat) (env : REnv) (stack : List RVal) :
    Except RError (List RVal) :=
  match ddfindVarR n env with
  | .error e => .error e
  | .ok val =>
    if val = RVal.unboundV then .error (.rError "object not found")
    else if val = RVal.missingArgV then
      .error (.rError "argument is missing, with no default")
    else
      let pushed :=
        match val with
        | .promV pv pf => promiseValueR pv pf
        | v => v
      .ok (pushed :: stack)

/-- `ins_force_` (interp.c): pop a value that must be a promise
(`assert(TYPEOF(p) == PROMSXP)`), push `promiseValue` of it. -/
def ins_force (stack : List RVal) : Except RError (List RVal) :=
  match stack with
  | .promV pv pf :: rest => .ok (promiseValueR pv pf :: rest)
  | _ :: _ => .error .assertFail
  | [] => .error .stackUnderflow

/-- `ins_asast_` (interp.c): pop a value that must be a promise, push its
source AST — `PRCODE`, read through the constant pool when the promise
body is rir code; the pool read is the host's `astOf`. -/
def ins_asast (astOf : RVal → RVal) (stack : List RVal) :
    Except RError (List RVal) :=
  match stack with
  | .promV pv pf :: rest => .ok (astOf (.promV pv pf) :: rest)
  | _ :: _ => .error .assertFail
  | [] => .error .stackUnderflow

/-- `ins_close_` (interp.c): pop `body` then `formals`, push a fresh
closure with those fields (its `CLOENV` is the frame environment, which
is not part of the value). -/
def ins_close (stack : List RVal) : Except RError (List RVal) :=
  match stack with
  | body :: formals :: rest => .ok (RVal.closureV formals body :: rest)
  | _ => .error .stackUnderflow

/-- Replace-or-append a binding in a frame (`defineVar` on the frame's
own environment). -/
def updateFrame (frame : List (String × RVal)) (s : String) (v : RVal) :
    List (String × RVal) :=
  match frame with
  | [] => [(s, v)]
  | (n, w) :: rest =>
    if n = s then (s, v) :: rest else (n, w) :: updateFrame rest s v

/-- Modelled from the spec: the host environment primitive `defineVar`:
bind the symbol in the environment's own frame; the empty environment
admits no bindings. -/
def defineVarR (s : String) (v : RVal) : REnv → Except RError REnv
  | .empty => .error (.rError "cannot add bindings to the empty environment")
  | .ext frame parent => .ok (.ext (updateFrame frame s v) parent)

/-- `ins_lt_` (interp.c): pop `rhs` then `lhs`; for a pair of scalar reals
push the interned `TRUE`/`FALSE` of `REAL(lhs)[0] < REAL(rhs)[0]` (an
`NA_REAL` operand is a NaN, whose comparison is false); any other shape
reaches `NOT_IMPLEMENTED` (`assert(false)`). -/
def ins_lt (stack : List RVal) : Except RError (List RVal) :=
  match stack with
  | rhs :: lhs :: rest =>
    match lhs, rhs with
    | .realV [a], .realV [b] =>
      let res := match a, b with
        | some x, some y => if x < y then RVal.trueV else RVal.falseV
        | _, _ => RVal.falseV
      .ok (res :: rest)
    | _, _ => .error .assertFail
  | _ => .error .stackUnderflow

/-- `ins_isfun_` (interp.c): inspect `ostack_top` without popping: a
closure is (possibly) jitted, specials and builtins pass, anything else
raises "attempt to apply non-function". -/
def ins_isfun (stack : List RVal) : Except RError (List RVal) :=
  match stack with
  | v :: rest =>
    match v.rTypeof with
    | .CLOSXP | .SPECIALSXP | .BUILTINSXP => .ok (v :: rest)
    | _ => .error (.rError "attempt to apply non-function")
  | [] => .error .stackUnderflow

/-- `ins_inc_` (interp.c): the top value must be an `INTSXP`
(`assert`); increment its first slot, in place when unshared, else pop
and push a fresh scalar holding the incremented value.  Reading an empty
or `NA`-headed integer (the source would increment the `NA_INTEGER`
bit pattern) is modelled as undefined behaviour. -/
def ins_inc (maybeShared : RVal → Bool) (stack : List RVal) :
    Except RError (List RVal) :=
  match stack with
  | .intV (some i :: xs) :: rest =>
    if maybeShared (.intV (some i :: xs)) then
      .ok (RVal.intV [some (i + 1)] :: rest)
    else .ok (RVal.intV (some (i + 1) :: xs) :: rest)
  | .intV _ :: _ => .error .typeError
  | _ :: _ => .error .assertFail
  | [] => .error .stackUnderflow

/-- Truncation toward zero, as a C cast of a double to `int`. -/
def ratTrunc (q : Rat) : Int := if q < 0 then -((-q).floor) else q.floor

/-- Modelled from the spec: the host primitive `Rf_asInteger`: first
element of a logical/integer/real vector converted to integer (reals
truncate toward zero), `NA` (`none`) when empty, `NA`-valued or not
interpretable. -/
def asIntegerR : RVal → Option Int
  | .trueV => some 1
  | .falseV => some 0
  | .naLglV => none
  | .lglV xs =>
    match xs.head? with
    | some (some b) => some (if b then 1 else 0)
    | _ => none
  | .intV xs => (xs.head?).getD none
  | .realV xs =>
    match xs.head? with
    | some (some q) => some (ratTrunc q)
    | _ => none
  | _ => none

/-- `ins_test_bounds_` (interp.c): read `vec` at depth 1 and `idx` at
depth 0 without popping; push the interned `TRUE`/`FALSE` of
`0 < asInteger(idx) <= length(vec)` (an `NA` index is `INT_MIN`, hence
never positive). -/
def ins_test_bounds (stack : List RVal) : Except RError (List RVal) :=
  match stack with
  | idx :: vec :: rest =>
    let b := match asIntegerR idx with
      | some i => decide (0 < i ∧ i ≤ (vec.rLength : Int))
      | none => false
    .ok ((if b then RVal.trueV else RVal.falseV) :: idx :: vec :: rest)
  | _ => .error .stackUnderflow

/-- `ins_uniq_` (interp.c): `shallow_duplicate` the top value when it may
be shared.  The duplicate is structurally identical and object identity
is not part of the value model, so the stack is unchanged. -/
def ins_uniq (stack : List RVal) : Except RError (List RVal) :=
  match stack with
  | v :: rest => .ok (v :: rest)
  | [] => .error .stackUnderflow

/-- `ScalarLogical`, which interns the three logical scalars. -/
def mkLglScalar : Option Bool → RVal
  | some true => .trueV
  | some false => .falseV
  | none => .naLglV

/-- `ins_aslogical_` (interp.c): replace the top value by
`ScalarLogical(asLogical(t))`. -/
def ins_aslogical (stack : List RVal) : Except RError (List RVal) :=
  match stack with
  | t :: rest => .ok (mkLglScalar (asLogicalR t) :: rest)
  | [] => .error .stackUnderflow

/-- `ins_brobj_` (interp.c): read `ostack_top` without popping and jump
when it `isObject`. -/
def ins_brobj (isObj : RVal → Bool) (off : Int) (pc : Nat)
    (stack : List RVal) : Except RError (Int × List RVal) :=
  match stack with
  | v :: rest =>
    .ok (if isObj v then branchTarget pc off else (pc : Int) + 1, v :: rest)
  | [] => .error .stackUnderflow

/-- The numeric `SEXPTYPE` codes, as the C `switch` of `ins_extract1_`
compares them (31 is the bogus rir code tag). -/
def sexpCode : SexpType → Nat
  | .NILSXP => 0
  | .SYMSXP => 1
  | .LISTSXP => 2
  | .CLOSXP => 3
  | .ENVSXP => 4
  | .PROMSXP => 5
  | .LANGSXP => 6
  | .SPECIALSXP => 7
  | .BUILTINSXP => 8
  | .LGLSXP => 10
  | .INTSXP => 13
  | .REALSXP => 14
  | .STRSXP => 16
  | .VECSXP => 19
  | .RAWSXP => 24
  | .RIRCODESXP => 31

/-- `IS_SIMPLE_SCALAR(x, t)`: type `t`, length 1, no attributes. -/
def isSimpleScalar (anyAttr : RVal → Bool) (x : RVal) (t : SexpType) : Bool :=
  x.rTypeof = t && x.rLength = 1 && !(anyAttr x)

/-- The index a `SIMPLECASE` of `ins_extract1_` reads from a simple
scalar index operand, as a C `int` (a real truncates toward zero).  An
`NA` slot is `NA_REAL` cast to `int`, or `INT_MIN` decremented past the
`int` range — undefined behaviour, hence `none`. -/
def idxInt? : RVal → Option Int
  | .realV [some q] => some (ratTrunc q)
  | .intV [some i] => some i
  | .trueV => some 1
  | .falseV => some 0
  | .lglV [some b] => some (if b then 1 else 0)
  | _ => none

/-- The length-1 result vector a `SIMPLECASE` builds from element `j` of
`val` (`vecaccess(res)[0] = vecaccess(val)[j]` into a fresh
`allocVector(vectype, 1)`). -/
def vecElemRes? (val : RVal) (j : Nat) : Option RVal :=
  match val with
  | .realV xs => (xs.get? j).map fun x => RVal.realV [x]
  | .intV xs => (xs.get? j).map fun x => RVal.intV [x]
  | .lglV xs => (xs.get? j).map fun x => RVal.lglV [x]
  | .trueV => if j = 0 then some (RVal.lglV [some true]) else none
  | .falseV => if j = 0 then some (RVal.lglV [some false]) else none
  | .naLglV => if j = 0 then some (RVal.lglV [none]) else none
  | _ => none

/-- The fast path of `ins_extract1_` on popped `val` and `idx`:
`.ok (some res)` is a fast-path result, `.ok none` falls back to the
`do_subset2_dflt` host call.  The `switch` key is
`TYPEOF(val) << 5 + TYPEOF(idx)`, which C precedence parses as
`TYPEOF(val) << (5 + TYPEOF(idx))` — the nine `SIMPLECASE` labels are
built by the same expression, so each intended type pair still lands on
its own case, and any accidental key collision is routed to the fallback
by the `IS_SIMPLE_SCALAR(idx, idxtype)` guard, whose `idxtype` can then
never match.  Within a case: a names attribute on `val` or a non-simple
index falls back; the result reuses `val` itself when it is a simple
unshared scalar (the slot-0 self-write is the identity) and is a fresh
length-1 vector otherwise; an out-of-range positive index falls back,
while a negative or `NA` index reads out of bounds (undefined
behaviour). -/
def ins_extract1_fast (namesAttr anyAttr maybeShared : RVal → Bool)
    (val idx : RVal) : Except RError (Option RVal) :=
  let key := sexpCode val.rTypeof * 2 ^ (5 + sexpCode idx.rTypeof)
  let cases : List (SexpType × SexpType) :=
    [(.REALSXP, .REALSXP), (.REALSXP, .INTSXP), (.REALSXP, .LGLSXP),
     (.INTSXP, .REALSXP), (.INTSXP, .INTSXP), (.INTSXP, .LGLSXP),
     (.LGLSXP, .REALSXP), (.LGLSXP, .INTSXP), (.LGLSXP, .LGLSXP)]
  match cases.find? (fun p => key = sexpCode p.1 * 2 ^ (5 + sexpCode p.2)) with
  | none => .ok none
  | some (vt, it) =>
    if namesAttr val ∨ ¬ isSimpleScalar anyAttr idx it then .ok none
    else
      match idxInt? idx with
      | none => .error .typeError
      | some i0 =>
        let i := i0 - 1
        if (val.rLength : Int) ≤ i then .ok none
        else if i < 0 then .error .typeError
        else
          match vecElemRes? val i.toNat with
          | none => .error .typeError
          | some fresh =>
            if isSimpleScalar anyAttr val vt ∧ ¬ maybeShared val then
              .ok (some val)
            else .ok (some fresh)

/-- Interpret a stack-transformer result at fall-through pc. -/
def ofExcept (s : MState) : Except RError (List RVal) → StepRes
  | .ok stack => .next ⟨s.pc + 1, stack, s.env, s.chain, s.hcount⟩
  | .error e => .err e

/-- Interpret a branch result (new pc as an `Int`; `PC_BOUNDSCHECK`
reduces here to rejecting a pc before the code start). -/
def ofBranch (s : MState) : Except RError (Int × List RVal) → StepRes
  | .ok (t, stack) =>
    if t < 0 then .err .badPc
    else .next ⟨t.toNat, stack, s.env, s.chain, s.hcount⟩
  | .error e => .err e

/-- The `SETJMP` handler inside `ins_beginloop_` (interp.c), entered when
a host callback longjmps a `CTXT_BREAK` (`brk = true`) or `CTXT_NEXT`
into this frame's innermost loop context: restore the stack to the length
the target context stored in `cenddata`, assert the restored top is that
context's `RAWSXP` store ("stack botched"), re-read the saved pc and the
jump offset of the `beginloop_`, and resume just past it — plus the
offset for a `break`.  A longjmp with no loop context in this frame
targets an outer frame and this frame never completes.  Restoring to a
length above the live stack would read stale slots: the "stack botched"
assert is the modelled outcome. -/
def doLongjmp (code : List Instr) (brk : Bool) (s : MState) : StepRes :=
  match s.chain with
  | [] => .err .nonLocalExit
  | (p, cl) :: _ =>
    if cl ≤ s.stack.length then
      match s.stack.drop (s.stack.length - cl) with
      | .cntxtV p' :: rest =>
        if p' = p then
          match code.get? p with
          | some (.beginloop off) =>
            if brk then
              if branchTarget p off < 0 then .err .badPc
              else .next ⟨(branchTarget p off).toNat, .cntxtV p' :: rest,
                          s.env, s.chain, s.hcount⟩
            else .next ⟨p + 1, .cntxtV p' :: rest, s.env, s.chain, s.hcount⟩
          | _ => .err .assertFail
        else .err .assertFail
      | _ => .err .assertFail
    else .err .assertFail

/-- Invoke the next host callback with the handler's stack already set to
`newStack` (operands popped; the callback's normal return value is pushed
on top, per the `RirContext`/`restoreCont` snapshot discipline and the
`rirCallClosure` stack guard).  A `break`/`next` longjmp goes to the
`SETJMP` handler of the innermost loop context; an unwinding exit leaves
the frame. -/
def hostK (host : Host) (code : List Instr) (s : MState)
    (newStack : List RVal) : StepRes :=
  match host.call s.hcount with
  | .ok v => .next ⟨s.pc + 1, v :: newStack, s.env, s.chain, s.hcount + 1⟩
  | .ljBreak =>
    doLongjmp code true ⟨s.pc, newStack, s.env, s.chain, s.hcount + 1⟩
  | .ljNext =>
    doLongjmp code false ⟨s.pc, newStack, s.env, s.chain, s.hcount + 1⟩
  | .unwind => .err .nonLocalExit

/-- One iteration of the `evalRirCode` dispatch loop: fetch, advance,
execute.  `call_` pops the callee (checked by `doCall`'s `switch`) and
pushes the host result; `call_stack_` finds the callee at depth `nargs`,
performs the placeholder AST rewrite (whose failure modes are
`doCallStackRewrite`'s), pops the `nargs` arguments and the callee, and
pushes the host result; `dispatch_` asserts the popped receiver
`isObject` and pushes the host result; `subset1_` and `extract1_`'s
fallback likewise pop their two operands and push the host result.
`beginloop_` pushes the context store and records
`(pc, ostack_length after the push)` on the frame chain; `endcontext_`
asserts a `RAWSXP` on top, ends the innermost context and pops the
store. -/
def step (host : Host) (code : List Instr) (s : MState) : StepRes :=
  match code.get? s.pc with
  | none => .err .badPc
  | some i =>
    match i with
    | .push v => .next ⟨s.pc + 1, v :: s.stack, s.env, s.chain, s.hcount⟩
    | .ldfun sym => ofExcept s (ins_ldfun sym s.env s.stack)
    | .ldvar sym => ofExcept s (ins_ldvar sym s.env s.stack)
    | .ldddvar n => ofExcept s (ins_ldddvar n s.env s.stack)
    | .callI =>
      match s.stack with
      | cls :: rest =>
        if isFunVal cls then hostK host code s rest else .err .assertFail
      | [] => .err .stackUnderflow
    | .callStack nargs call =>
      match s.stack.get? nargs with
      | none => .err .stackUnderflow
      | some callee =>
        match doCallStackRewrite call nargs s.stack with
        | .error e => .err e
        | .ok _ =>
          if isFunVal callee then
            hostK host code s (s.stack.drop (nargs + 1))
          else .err .assertFail
    | .dispatchI _ =>
      match s.stack with
      | obj :: rest =>
        if host.isObj obj then hostK host code s rest else .err .assertFail
      | [] => .err .stackUnderflow
    | .promiseI pf =>
      .next ⟨s.pc + 1, .promV .unset pf :: s.stack, s.env, s.chain, s.hcount⟩
    | .pushCode i =>
      .next ⟨s.pc + 1, .codeV i :: s.stack, s.env, s.chain, s.hcount⟩
    | .close => ofExcept s (ins_close s.stack)
    | .force => ofExcept s (ins_force s.stack)
    | .pop => ofExcept s (ins_pop s.stack)
    | .asast => ofExcept s (ins_asast host.astOf s.stack)
    | .stvar sym =>
      match s.stack with
      | v :: rest =>
        match defineVarR sym v s.env with
        | .ok env' => .next ⟨s.pc + 1, rest, env', s.chain, s.hcount⟩
        | .error e => .err e
      | [] => .err .stackUnderflow
    | .asbool => ofExcept s ((ins_asbool s.stack).map Prod.snd)
    | .brobj off => ofBranch s (ins_brobj host.isObj off s.pc s.stack)
    | .endcontext =>
      match s.stack with
      | c :: rest =>
        if c.rTypeof = SexpType.RAWSXP then
          .next ⟨s.pc + 1, rest, s.env, s.chain.tail, s.hcount⟩
        else .err .assertFail
      | [] => .err .stackUnderflow
    | .brtrue off => ofBranch s (ins_brtrue off s.pc s.stack)
    | .brfalse off => ofBranch s (ins_brfalse off s.pc s.stack)
    | .br off => ofBranch s (.ok (branchTarget s.pc off, s.stack))
    | .dup => ofExcept s (ins_dup s.stack)
    | .add => ofExcept s (ins_add s.stack)
    | .sub => ofExcept s (ins_sub s.stack)
    | .lt => ofExcept s (ins_lt s.stack)
    | .swap => ofExcept s (ins_swap s.stack)
    | .put n => ofExcept s (ins_put n s.stack)
    | .pick n => ofExcept s (ins_pick n s.stack)
    | .isI t => ofExcept s (ins_is t s.stack)
    | .isspecial sym => ofExcept s (ins_isspecial sym s.env s.stack)
    | .isfun => ofExcept s (ins_isfun s.stack)
    | .inc => ofExcept s (ins_inc host.maybeShared s.stack)
    | .dup2 => ofExcept s (ins_dup2 s.stack)
    | .testBounds => ofExcept s (ins_test_bounds s.stack)
    | .invisible => .next ⟨s.pc + 1, s.stack, s.env, s.chain, s.hcount⟩
    | .extract1 =>
      match s.stack with
      | idx :: val :: rest =>
        match ins_extract1_fast host.namesAttr host.anyAttr host.maybeShared
            val idx with
        | .error e => .err e
        | .ok (some res) =>
          .next ⟨s.pc + 1, res :: rest, s.env, s.chain, s.hcount⟩
        | .ok none => hostK host code s rest
      | _ => .err .stackUnderflow
    | .subset1 =>
      match s.stack with
      | _ :: _ :: rest => hostK host code s rest
      | _ => .err .stackUnderflow
    | .uniq => ofExcept s (ins_uniq s.stack)
    | .aslogical => ofExcept s (ins_aslogical s.stack)
    | .lglAnd => ofExcept s (ins_lgl_and s.stack)
    | .lglOr => ofExcept s (ins_lgl_or s.stack)
    | .beginloop _ =>
      .next ⟨s.pc + 1, RVal.cntxtV s.pc :: s.stack, s.env,
             (s.pc, s.stack.length + 1) :: s.chain, s.hcount⟩
    | .ret => .done s.stack

/-- Fuel-bounded execution of the dispatch loop.  `none` = out of fuel;
`some (.ok stk)` = `ret_` reached with stack `stk`;
`some (.error e)` = the frame did not complete normally. -/
def run (host : Host) (code : List Instr) :
    Nat → MState → Option (Except RError (List RVal))
  | 0, _ => none
  | fuel + 1, s =>
    match step host code s with
    | .next s' => run host code fuel s'
    | .done stk => some (.ok stk)
    | .err e => some (.error e)

/-! ### Static stack-effect signatures (`§4.4` of the spec: the builder's
abstract interpretation assigns each opcode a `(pops, pushes)` signature;
instructions that only read below the top are charged with re-pushing what
they read) -/

/-- Values popped (or read, counting depth) by each instruction. -/
def instrPops : Instr → Nat
  | .push _ => 0
  | .ldfun _ => 0
  | .ldvar _ => 0
  | .ldddvar _ => 0
  | .callI => 1
  | .callStack n _ => n + 1
  | .dispatchI _ => 1
  | .promiseI _ => 0
  | .pushCode _ => 0
  | .close => 2
  | .force => 1
  | .pop => 1
  | .asast => 1
  | .stvar _ => 1
  | .asbool => 1
  | .brobj _ => 1
  | .endcontext => 1
  | .brtrue _ => 1
  | .brfalse _ => 1
  | .br _ => 0
  | .dup => 1
  | .add => 2
  | .sub => 2
  | .lt => 2
  | .swap => 2
  | .put n => n + 1
  | .pick n => n + 1
  | .isI _ => 1
  | .isspecial _ => 0
  | .isfun => 1
  | .inc => 1
  | .dup2 => 2
  | .testBounds => 2
  | .invisible => 0
  | .extract1 => 2
  | .subset1 => 2
  | .uniq => 1
  | .aslogical => 1
  | .lglAnd => 2
  | .lglOr => 2
  | .beginloop _ => 0
  | .ret => 0

/-- Values pushed by each instruction. -/
def instrPushes : Instr → Nat
  | .push _ => 1
  | .ldfun _ => 1
  | .ldvar _ => 1
  | .ldddvar _ => 1
  | .callI => 1
  | .callStack _ _ => 1
  | .dispatchI _ => 1
  | .promiseI _ => 1
  | .pushCode _ => 1
  | .close => 1
  | .force => 1
  | .pop => 0
  | .asast => 1
  | .stvar _ => 0
  | .asbool => 1
  | .brobj _ => 1
  | .endcontext => 0
  | .brtrue _ => 0
  | .brfalse _ => 0
  | .br _ => 0
  | .dup => 2
  | .add => 1
  | .sub => 1
  | .lt => 1
  | .swap => 2
  | .put n => n + 1
  | .pick n => n + 1
  | .isI _ => 1
  | .isspecial _ => 0
  | .isfun => 1
  | .inc => 1
  | .dup2 => 4
  | .testBounds => 3
  | .invisible => 0
  | .extract1 => 1
  | .subset1 => 1
  | .uniq => 1
  | .aslogical => 1
  | .lglAnd => 1
  | .lglOr => 1
  | .beginloop _ => 1
  | .ret => 0

/-- Control-flow successors of the instruction at `pc` (as `Int`
indices).  A `beginloop_` has, besides its fall-through, the break
target of its loop: a `CTXT_BREAK` longjmp received by its `SETJMP`
resumes there, with the context store still on the stack. -/
def instrSuccs (i : Instr) (pc : Nat) : List Int :=
  match i with
  | .br off => [branchTarget pc off]
  | .brtrue off => [(pc : Int) + 1, branchTarget pc off]
  | .brfalse off => [(pc : Int) + 1, branchTarget pc off]
  | .brobj off => [(pc : Int) + 1, branchTarget pc off]
  | .beginloop off => [(pc : Int) + 1, branchTarget pc off]
  | .ret => []
  | _ => [(pc : Int) + 1]

/-- One program point of a height annotation is consistent: the height
covers the instruction's pops, `ret_` sees exactly height 1 (the result),
and every in-range successor is annotated with the transferred height.
`H.get? pc = some none` marks an unreachable point. -/
def balancedAt (code : List Instr) (H : List (Option Nat)) (pc : Nat) : Bool :=
  match code.get? pc, H.get? pc with
  | some i, some (some h) =>
    decide (instrPops i ≤ h) &&
    (match i with
     | .ret => decide (h = 1)
     | _ => true) &&
    (instrSuccs i pc).all fun t =>
      if 0 ≤ t ∧ t < (code.length : Int) then
        match H.get? t.toNat with
        | some (some hs) => decide (hs = h - instrPops i + instrPushes i)
        | _ => false
      else true
  | some _, some none => true
  | some _, none => false
  | none, _ => true

/-- A consistent stack-height annotation for an instruction stream: entry
height 0 and consistency at every program point.  This is the property the
code stream builder's abstract interpretation establishes for compiled
code. -/
def stackBalanced (code : List Instr) (H : List (Option Nat)) : Bool :=
  (decide (code = []) || decide (H.get? 0 = some (some 0))) &&
  (List.range code.length).all (balancedAt code H)

/-! ### Soundness of the stack-height analysis over the dispatch loop -/

/-- Every loop-context chain entry `(p, cl)` was pushed by the
`beginloop_` at `p`: the saved length `cl` is the entry length plus the
static height just past that `beginloop_`. -/
def chainOk (code : List Instr) (H : List (Option Nat)) (entry : Nat)
    (chain : List (Nat × Nat)) : Prop :=
  ∀ p cl, (p, cl) ∈ chain →
    ∃ off h, code.get? p = some (.beginloop off) ∧
      H.get? p = some (some h) ∧ cl = entry + h + 1

/-- The run-time invariant induced by a height annotation: whenever the pc
is in range, the annotation is defined there and measures the current
stack length relative to the entry length; and the loop-context chain is
well-formed (`chainOk`). -/
def InvM (code : List Instr) (H : List (Option Nat)) (entry : Nat)
    (s : MState) : Prop :=
  (s.pc < code.length →
    ∃ h, H.get? s.pc = some (some h) ∧ s.stack.length = entry + h) ∧
  chainOk code H entry s.chain

lemma ofExcept_next {s : MState} {r : Except RError (List RVal)} {s' : MState}
    (h : ofExcept s r = .next s') :
    ∃ st, r = .ok st ∧ s' = ⟨s.pc + 1, st, s.env, s.chain, s.hcount⟩ := by
  cases r with
  | ok st => exact ⟨st, rfl, by cases h; rfl⟩
  | error e => cases h

lemma ofExcept_ne_done {s : MState} {r : Except RError (List RVal)}
    {stk : List RVal} : ofExcept s r ≠ .done stk := by
  cases r <;> simp [ofExcept]

lemma ofBranch_next {s : MState} {r : Except RError (Int × List RVal)}
    {s' : MState} (h : ofBranch s r = .next s') :
    ∃ t st, r = .ok (t, st) ∧ 0 ≤ t ∧
      s' = ⟨t.toNat, st, s.env, s.chain, s.hcount⟩ := by
  cases r with
  | ok p =>
    obtain ⟨t, st⟩ := p
    by_cases ht : t < 0
    · simp [ofBranch, ht] at h
    · refine ⟨t, st, rfl, by omega, ?_⟩
      simp only [ofBranch, if_neg ht] at h
      injection h with h2
      exact h2.symm
  | error e => cases h

lemma ofBranch_ne_done {s : MState} {r : Except RError (Int × List RVal)}
    {stk : List RVal} : ofBranch s r ≠ .done stk := by
  cases r with
  | ok p =>
    obtain ⟨t, st⟩ := p
    by_cases ht : t < 0 <;> simp [ofBranch, ht]
  | error e => simp [ofBranch]

lemma doLongjmp_next {code : List Instr} {brk : Bool} {t : MState}
    {s' : MState} (h : doLongjmp code brk t = .next s') :
    ∃ p cl ch off rest2, t.chain = (p, cl) :: ch ∧ cl ≤ t.stack.length ∧
      code.get? p = some (.beginloop off) ∧
      s'.stack = RVal.cntxtV p :: rest2 ∧ s'.stack.length = cl ∧
      s'.chain = t.chain ∧
      ∃ tt, 0 ≤ tt ∧ s'.pc = tt.toNat ∧ tt ∈ instrSuccs (.beginloop off) p := by
  unfold doLongjmp at h
  cases hch : t.chain with
  | nil => rw [hch] at h; cases h
  | cons hd ch =>
    obtain ⟨p, cl⟩ := hd
    rw [hch] at h
    dsimp only at h
    by_cases hcl : cl ≤ t.stack.length
    case neg => rw [if_neg hcl] at h; cases h
    case pos =>
      rw [if_pos hcl] at h
      cases hd2 : t.stack.drop (t.stack.length - cl) with
      | nil => rw [hd2] at h; cases h
      | cons v rest2 =>
        rw [hd2] at h
        cases v <;> try cases h
        case cntxtV p' =>
          dsimp only at h
          by_cases hp : p' = p
          case neg => rw [if_neg hp] at h; cases h
          case pos =>
            rw [if_pos hp] at h
            subst hp
            cases hg : code.get? p' with
            | none => rw [hg] at h; cases h
            | some ins =>
              rw [hg] at h
              cases ins <;> try cases h
              case beginloop off =>
                dsimp only at h
                have hlen : (RVal.cntxtV p' :: rest2).length = cl := by
                  have h2 := congrArg List.length hd2
                  simp only [List.length_drop] at h2
                  omega
                by_cases hbrk : brk = true
                case pos =>
                  rw [if_pos hbrk] at h
                  by_cases ht : branchTarget p' off < 0
                  case pos => rw [if_pos ht] at h; cases h
                  case neg =>
                    rw [if_neg ht] at h
                    cases h
                    exact ⟨p', cl, ch, off, rest2, rfl, hcl, hg, rfl, hlen,
                      rfl, branchTarget p' off, by omega, rfl,
                      by simp [instrSuccs]⟩
                case neg =>
                  rw [if_neg hbrk] at h
                  cases h
                  refine ⟨p', cl, ch, off, rest2, rfl, hcl, hg, rfl, hlen,
                    rfl, (p' : Int) + 1, by omega, ?_, by simp [instrSuccs]⟩
                  show p' + 1 = ((p' : Int) + 1).toNat
                  omega

lemma doLongjmp_done_false {code : List Instr} {brk : Bool} {t : MState}
    {stk : List RVal} (h : doLongjmp code brk t = .done stk) : False := by
  unfold doLongjmp at h
  repeat' split at h
  all_goals cases h

lemma hostK_next {host : Host} {code : List Instr} {s : MState}
    {ns : List RVal} {s' : MState} (h : hostK host code s ns = .next s') :
    (∃ v, host.call s.hcount = .ok v ∧
       s' = ⟨s.pc + 1, v :: ns, s.env, s.chain, s.hcount + 1⟩) ∨
    (∃ brk, doLongjmp code brk
       ⟨s.pc, ns, s.env, s.chain, s.hcount + 1⟩ = .next s') := by
  unfold hostK at h
  cases hc : host.call s.hcount with
  | ok v =>
    rw [hc] at h
    exact Or.inl ⟨v, rfl, by cases h; rfl⟩
  | ljBreak => rw [hc] at h; exact Or.inr ⟨true, h⟩
  | ljNext => rw [hc] at h; exact Or.inr ⟨false, h⟩
  | unwind => rw [hc] at h; cases h

lemma hostK_done_false {host : Host} {code : List Instr} {s : MState}
    {ns : List RVal} {stk : List RVal}
    (h : hostK host code s ns = .done stk) : False := by
  unfold hostK at h
  cases hc : host.call s.hcount with
  | ok v => rw [hc] at h; cases h
  | ljBreak => rw [hc] at h; exact doLongjmp_done_false h
  | ljNext => rw [hc] at h; exact doLongjmp_done_false h
  | unwind => rw [hc] at h; cases h

lemma ins_pop_len {st out : List RVal} (h : ins_pop st = .ok out) :
    1 ≤ st.length ∧ out.length + 1 = st.length := by
  cases st with
  | nil => cases h
  | cons x r => cases h; simp

lemma ins_dup_len {st out : List RVal} (h : ins_dup st = .ok out) :
    1 ≤ st.length ∧ out.length + 1 = st.length + 2 := by
  cases st with
  | nil => cases h
  | cons x r => cases h; simp

lemma ins_dup2_len {st out : List RVal} (h : ins_dup2 st = .ok out) :
    2 ≤ st.length ∧ out.length + 2 = st.length + 4 := by
  cases st with
  | nil => cases h
  | cons x r =>
    cases r with
    | nil => cases h
    | cons y r2 => cases h; constructor <;> simp only [List.length_cons] <;> omega

lemma ins_swap_len {st out : List RVal} (h : ins_swap st = .ok out) :
    2 ≤ st.length ∧ out.length + 2 = st.length + 2 := by
  cases st with
  | nil => cases h
  | cons x r =>
    cases r with
    | nil => cases h
    | cons y r2 => cases h; constructor <;> simp only [List.length_cons] <;> omega

lemma ins_pick_len {n : Nat} {st out : List RVal} (h : ins_pick n st = .ok out) :
    n + 1 ≤ st.length ∧ out.length + (n + 1) = st.length + (n + 1) := by
  unfold ins_pick at h
  cases hg : st.get? n with
  | none => rw [hg] at h; cases h
  | some v =>
    rw [hg] at h
    cases h
    have hlt : n < st.length := by
      rcases List.get?_eq_some.mp hg with ⟨hl, _⟩
      exact hl
    have := List.length_eraseIdx_add_one hlt
    refine ⟨by omega, ?_⟩
    simp only [List.length_cons]
    omega

lemma ins_put_len {n : Nat} {st out : List RVal} (h : ins_put n st = .ok out) :
    n + 1 ≤ st.length ∧ out.length + (n + 1) = st.length + (n + 1) := by
  cases st with
  | nil => cases h
  | cons x r =>
    unfold ins_put at h
    by_cases hn : n ≤ r.length
    · simp only [hn, if_pos] at h
      cases h
      simp [List.length_take, List.length_drop]
      omega
    · simp only [hn, if_neg, not_false_iff] at h
      cases h

lemma ins_asbool_len {st : List RVal} {w : List String} {out : List RVal}
    (h : ins_asbool st = .ok (w, out)) :
    1 ≤ st.length ∧ out.length + 1 = st.length + 1 := by
  cases st with
  | nil => cases h
  | cons t rest =>
    dsimp only [ins_asbool] at h
    cases hc : asboolCond t with
    | none => rw [hc] at h; cases h
    | some b => rw [hc] at h; cases h; simp

lemma ins_lgl_and_len {st out : List RVal} (h : ins_lgl_and st = .ok out) :
    2 ≤ st.length ∧ out.length + 2 = st.length + 1 := by
  cases st with
  | nil => cases h
  | cons t2 r =>
    cases r with
    | nil => cases h
    | cons t1 rest =>
      dsimp only [ins_lgl_and] at h
      cases h1 : lgl0 t1 with
      | none => rw [h1] at h; cases h
      | some x1 =>
        cases h2 : lgl0 t2 with
        | none => rw [h1, h2] at h; cases h
        | some x2 =>
          rw [h1, h2] at h
          dsimp only at h
          split at h <;> [skip; split at h] <;>
            (cases h; constructor <;> simp only [List.length_cons] <;> omega)

lemma ins_lgl_or_len {st out : List RVal} (h : ins_lgl_or st = .ok out) :
    2 ≤ st.length ∧ out.length + 2 = st.length + 1 := by
  cases st with
  | nil => cases h
  | cons t2 r =>
    cases r with
    | nil => cases h
    | cons t1 rest =>
      dsimp only [ins_lgl_or] at h
      cases h1 : lgl0 t1 with
      | none => rw [h1] at h; cases h
      | some x1 =>
        cases h2 : lgl0 t2 with
        | none => rw [h1, h2] at h; cases h
        | some x2 =>
          rw [h1, h2] at h
          dsimp only at h
          split at h <;> [skip; split at h] <;>
            (cases h; constructor <;> simp only [List.length_cons] <;> omega)

lemma ins_is_len {t : SexpType} {st out : List RVal} (h : ins_is t st = .ok out) :
    1 ≤ st.length ∧ out.length + 1 = st.length + 1 := by
  cases st with
  | nil => cases h
  | cons v rest => cases t <;> (try cases h) <;> simp_all [ins_is]

lemma ins_brtrue_ok {off : Int} {pc : Nat} {st : List RVal} {t : Int}
    {out : List RVal} (h : ins_brtrue off pc st = .ok (t, out)) :
    1 ≤ st.length ∧ out.length + 1 = st.length ∧
      (t = (pc : Int) + 1 ∨ t = branchTarget pc off) := by
  cases st with
  | nil => cases h
  | cons v rest =>
    dsimp only [ins_brtrue] at h
    cases h
    refine ⟨by simp, by simp, ?_⟩
    by_cases hv : v = RVal.trueV <;> simp [hv]

lemma ins_brfalse_ok {off : Int} {pc : Nat} {st : List RVal} {t : Int}
    {out : List RVal} (h : ins_brfalse off pc st = .ok (t, out)) :
    1 ≤ st.length ∧ out.length + 1 = st.length ∧
      (t = (pc : Int) + 1 ∨ t = branchTarget pc off) := by
  cases st with
  | nil => cases h
  | cons v rest =>
    dsimp only [ins_brfalse] at h
    cases h
    refine ⟨by simp, by simp, ?_⟩
    by_cases hv : v = RVal.falseV <;> simp [hv]

lemma ins_brobj_ok {f : RVal → Bool} {off : Int} {pc : Nat} {st : List RVal}
    {t : Int} {out : List RVal} (h : ins_brobj f off pc st = .ok (t, out)) :
    1 ≤ st.length ∧ out.length + 1 = st.length + 1 ∧
      (t = (pc : Int) + 1 ∨ t = branchTarget pc off) := by
  cases st with
  | nil => cases h
  | cons v rest =>
    dsimp only [ins_brobj] at h
    cases h
    refine ⟨by simp, by simp, ?_⟩
    by_cases hv : f v = true <;> simp [hv]

lemma ins_ldvar_len {sym : String} {env : REnv} {st out : List RVal}
    (h : ins_ldvar sym env st = .ok out) : out.length = st.length + 1 := by
  dsimp only [ins_ldvar] at h
  split at h
  · cases h
  · split at h
    · cases h
    · cases h; simp

lemma ins_ldfun_len {sym : String} {env : REnv} {st out : List RVal}
    (h : ins_ldfun sym env st = .ok out) : out.length = st.length + 1 := by
  dsimp only [ins_ldfun] at h
  split at h
  · cases h
  · split at h
    · cases h
    · split at h <;> (try cases h) <;> simp

lemma ins_ldddvar_len {n : Nat} {env : REnv} {st out : List RVal}
    (h : ins_ldddvar n env st = .ok out) : out.length = st.length + 1 := by
  dsimp only [ins_ldddvar] at h
  cases hd : ddfindVarR n env with
  | error e => rw [hd] at h; cases h
  | ok val =>
    rw [hd] at h
    dsimp only at h
    split at h
    · cases h
    · split at h
      · cases h
      · cases h; simp

lemma ins_close_len {st out : List RVal} (h : ins_close st = .ok out) :
    2 ≤ st.length ∧ out.length + 2 = st.length + 1 := by
  cases st with
  | nil => cases h
  | cons x r =>
    cases r with
    | nil => cases h
    | cons y r2 => cases h; constructor <;> simp only [List.length_cons] <;> omega

lemma ins_force_len {st out : List RVal} (h : ins_force st = .ok out) :
    1 ≤ st.length ∧ out.length + 1 = st.length + 1 := by
  cases st with
  | nil => cases h
  | cons v rest =>
    cases v <;> cases h <;> (constructor <;> simp only [List.length_cons] <;> omega)

lemma ins_asast_len {f : RVal → RVal} {st out : List RVal}
    (h : ins_asast f st = .ok out) :
    1 ≤ st.length ∧ out.length + 1 = st.length + 1 := by
  cases st with
  | nil => cases h
  | cons v rest =>
    cases v <;> cases h <;> (constructor <;> simp only [List.length_cons] <;> omega)

lemma ins_lt_len {st out : List RVal} (h : ins_lt st = .ok out) :
    2 ≤ st.length ∧ out.length + 2 = st.length + 1 := by
  cases st with
  | nil => cases h
  | cons x r =>
    cases r with
    | nil => cases h
    | cons y r2 =>
      dsimp only [ins_lt] at h
      split at h <;> (try cases h) <;>
        (constructor <;> simp only [List.length_cons] <;> omega)

lemma ins_isfun_len {st out : List RVal} (h : ins_isfun st = .ok out) :
    1 ≤ st.length ∧ out.length + 1 = st.length + 1 := by
  cases st with
  | nil => cases h
  | cons v rest =>
    dsimp only [ins_isfun] at h
    split at h <;> (try cases h) <;>
      (constructor <;> simp only [List.length_cons] <;> omega)

lemma ins_inc_len {f : RVal → Bool} {st out : List RVal}
    (h : ins_inc f st = .ok out) :
    1 ≤ st.length ∧ out.length + 1 = st.length + 1 := by
  cases st with
  | nil => cases h
  | cons v rest =>
    cases v <;> try cases h
    case intV xs =>
      cases xs with
      | nil => cases h
      | cons x xs2 =>
        cases x with
        | none => cases h
        | some i =>
          dsimp only [ins_inc] at h
          split at h <;> (cases h; constructor <;>
            simp only [List.length_cons] <;> omega)

lemma ins_test_bounds_len {st out : List RVal}
    (h : ins_test_bounds st = .ok out) :
    2 ≤ st.length ∧ out.length + 2 = st.length + 3 := by
  cases st with
  | nil => cases h
  | cons x r =>
    cases r with
    | nil => cases h
    | cons y r2 => cases h; constructor <;> simp only [List.length_cons] <;> omega

lemma ins_uniq_len {st out : List RVal} (h : ins_uniq st = .ok out) :
    1 ≤ st.length ∧ out.length + 1 = st.length + 1 := by
  cases st with
  | nil => cases h
  | cons v rest => cases h; simp

lemma ins_aslogical_len {st out : List RVal} (h : ins_aslogical st = .ok out) :
    1 ≤ st.length ∧ out.length + 1 = st.length + 1 := by
  cases st with
  | nil => cases h
  | cons v rest => cases h; simp

lemma ins_isspecial_len {sym : String} {env : REnv} {st out : List RVal}
    (h : ins_isspecial sym env st = .ok out) : out = st := by
  dsimp only [ins_isspecial] at h
  split at h
  · cases h; rfl
  · cases h

lemma stackBalanced_at {code : List Instr} {H : List (Option Nat)}
    (hbal : stackBalanced code H = true) {pc : Nat} (hpc : pc < code.length) :
    balancedAt code H pc = true := by
  unfold stackBalanced at hbal
  rw [Bool.and_eq_true] at hbal
  exact List.all_eq_true.mp hbal.2 pc (List.mem_range.mpr hpc)

/-- Unpack the per-point consistency of a balanced annotation: the height
covers the pops, `ret_` sees height 1, and every in-range successor
carries the transferred height. -/
lemma balanced_facts {code : List Instr} {H : List (Option Nat)}
    (hbal : stackBalanced code H = true) {pc : Nat} {i : Instr}
    (hget : code.get? pc = some i) {h : Nat}
    (hH : H.get? pc = some (some h)) :
    instrPops i ≤ h ∧ (i = .ret → h = 1) ∧
    ∀ t, t ∈ instrSuccs i pc → 0 ≤ t → t < (code.length : Int) →
      H.get? t.toNat = some (some (h - instrPops i + instrPushes i)) := by
  have hpc : pc < code.length := (List.get?_eq_some.mp hget).1
  have hb := stackBalanced_at hbal hpc
  unfold balancedAt at hb
  rw [hget, hH, Bool.and_eq_true, Bool.and_eq_true] at hb
  refine ⟨of_decide_eq_true hb.1.1, ?_, ?_⟩
  · intro hi
    subst hi
    exact of_decide_eq_true hb.1.2
  · intro t ht ht0 htl
    have hall := List.all_eq_true.mp hb.2 t ht
    rw [if_pos ⟨ht0, htl⟩] at hall
    cases hHs : H.get? t.toNat with
    | none => rw [hHs] at hall; cases hall
    | some o =>
      cases o with
      | none => rw [hHs] at hall; cases hall
      | some hs =>
        rw [hHs] at hall
        have hseq : hs = h - instrPops i + instrPushes i :=
          of_decide_eq_true hall
        rw [hseq]

/-- Height transfer to the fall-through successor. -/
lemma height_next1 {code : List Instr} {H : List (Option Nat)} {entry : Nat}
    (hbal : stackBalanced code H = true) {pc : Nat} {i : Instr}
    (hget : code.get? pc = some i) {h : Nat}
    (hH : H.get? pc = some (some h)) {len' : Nat}
    (hlen' : len' + instrPops i = (entry + h) + instrPushes i)
    (hsucc : ((pc : Int) + 1) ∈ instrSuccs i pc)
    (hpc' : pc + 1 < code.length) :
    ∃ h', H.get? (pc + 1) = some (some h') ∧ len' = entry + h' := by
  obtain ⟨hple, _, hsuccs⟩ := balanced_facts hbal hget hH
  have h2 := hsuccs ((pc : Int) + 1) hsucc (by omega) (by omega)
  have he : ((pc : Int) + 1).toNat = pc + 1 := by omega
  rw [he] at h2
  exact ⟨_, h2, by omega⟩

/-- Invariant preservation for a fall-through `ofExcept` step whose stack
effect obeys the instruction's static signature. -/
lemma invM_ofExcept {code : List Instr} {H : List (Option Nat)} {entry : Nat}
    (hbal : stackBalanced code H = true) {s : MState} {i : Instr}
    (hget : code.get? s.pc = some i) {h : Nat}
    (hH : H.get? s.pc = some (some h))
    (hlen : s.stack.length = entry + h)
    (hch : chainOk code H entry s.chain)
    {r : Except RError (List RVal)} {s' : MState}
    (hstep : ofExcept s r = .next s')
    (hsucc : ((s.pc : Int) + 1) ∈ instrSuccs i s.pc)
    (hlenLem : ∀ st, r = .ok st →
      st.length + instrPops i = s.stack.length + instrPushes i) :
    InvM code H entry s' := by
  obtain ⟨st, hok, rfl⟩ := ofExcept_next hstep
  have hl := hlenLem st hok
  refine ⟨?_, hch⟩
  intro hpc'
  dsimp only at hpc' ⊢
  exact height_next1 hbal hget hH (by omega) hsucc hpc'

/-- Invariant preservation for an `ofBranch` step whose targets lie among
the static successors and whose stack effect obeys the signature. -/
lemma invM_ofBranch {code : List Instr} {H : List (Option Nat)} {entry : Nat}
    (hbal : stackBalanced code H = true) {s : MState} {i : Instr}
    (hget : code.get? s.pc = some i) {h : Nat}
    (hH : H.get? s.pc = some (some h))
    (hlen : s.stack.length = entry + h)
    (hch : chainOk code H entry s.chain)
    {r : Except RError (Int × List RVal)} {s' : MState}
    (hstep : ofBranch s r = .next s')
    (hT : ∀ t st, r = .ok (t, st) →
      (st.length + instrPops i = s.stack.length + instrPushes i) ∧
        t ∈ instrSuccs i s.pc) :
    InvM code H entry s' := by
  obtain ⟨t, st, hok, ht0, rfl⟩ := ofBranch_next hstep
  obtain ⟨hl, hmem⟩ := hT t st hok
  refine ⟨?_, hch⟩
  intro hpc'
  dsimp only at hpc' ⊢
  obtain ⟨hple, _, hsuccs⟩ := balanced_facts hbal hget hH
  have htl : t < (code.length : Int) := by omega
  have h2 := hsuccs t hmem ht0 htl
  exact ⟨_, h2, by omega⟩

/-- A longjmp resume re-establishes the invariant: the restored length is
the one the chain entry recorded, which `chainOk` equates with the static
height just past the `beginloop_`, and both resume points are static
successors of the `beginloop_`. -/
lemma doLongjmp_inv {code : List Instr} {H : List (Option Nat)} {entry : Nat}
    (hbal : stackBalanced code H = true) {brk : Bool} {t : MState}
    (hch : chainOk code H entry t.chain) {s' : MState}
    (hstep : doLongjmp code brk t = .next s') :
    InvM code H entry s' := by
  obtain ⟨p, cl, ch, off, rest2, hcheq, hcl, hg, hstk, hslen, hschain, tt,
    ht0, hpc, hmem⟩ := doLongjmp_next hstep
  obtain ⟨off2, h2, hget2, hH2, hcl2⟩ :=
    hch p cl (by rw [hcheq]; exact List.mem_cons_self _ _)
  rw [hg] at hget2
  injection hget2 with hx
  injection hx with hoff
  subst hoff
  refine ⟨?_, by rw [hschain]; exact hch⟩
  intro hpc'
  obtain ⟨_, _, hsuccs⟩ := balanced_facts hbal hg hH2
  rw [hpc] at hpc'
  have htl : tt < (code.length : Int) := by omega
  have h3 := hsuccs tt hmem ht0 htl
  refine ⟨h2 - instrPops (Instr.beginloop off) +
    instrPushes (Instr.beginloop off), ?_, ?_⟩
  · rw [hpc]
    exact h3
  · rw [hslen]
    simp only [instrPops, instrPushes]
    omega

/-- Invariant preservation for a host callback invocation: a normal
return pushes one result over the handler's stack, and a longjmp resumes
through `doLongjmp_inv`. -/
lemma hostK_inv {host : Host} {code : List Instr} {H : List (Option Nat)}
    {entry : Nat} (hbal : stackBalanced code H = true) {s : MState}
    {i : Instr} (hget : code.get? s.pc = some i) {h : Nat}
    (hH : H.get? s.pc = some (some h))
    (hlen : s.stack.length = entry + h)
    (hch : chainOk code H entry s.chain)
    (hsucc : ((s.pc : Int) + 1) ∈ instrSuccs i s.pc)
    {ns : List RVal}
    (hns : ns.length + instrPops i + 1 = s.stack.length + instrPushes i)
    {s' : MState} (hstep : hostK host code s ns = .next s') :
    InvM code H entry s' := by
  rcases hostK_next hstep with ⟨v, hc, rfl⟩ | ⟨brk, hlj⟩
  · refine ⟨?_, hch⟩
    intro hpc'
    refine height_next1 hbal hget hH ?_ hsucc hpc'
    simp only [List.length_cons]
    omega
  · exact @doLongjmp_inv code H entry hbal brk
      ⟨s.pc, ns, s.env, s.chain, s.hcount + 1⟩ hch s' hlj

/-- One dispatch-loop iteration preserves the invariant, and a normal
termination (`ret_`) hands back a stack exactly one above the entry
length. -/
lemma step_preserve {host : Host} {code : List Instr} {H : List (Option Nat)}
    {entry : Nat} (hbal : stackBalanced code H = true) {s : MState}
    (hinv : InvM code H entry s) :
    (∀ s', step host code s = .next s' → InvM code H entry s') ∧
    (∀ stk, step host code s = .done stk → stk.length = entry + 1) := by
  obtain ⟨hht, hch⟩ := hinv
  constructor
  · intro s' hstep
    unfold step at hstep
    cases hget : code.get? s.pc with
    | none => rw [hget] at hstep; cases hstep
    | some i =>
      rw [hget] at hstep
      have hpc : s.pc < code.length := (List.get?_eq_some.mp hget).1
      obtain ⟨h, hH, hlen⟩ := hht hpc
      cases i with
      | push v =>
        cases hstep
        refine ⟨?_, hch⟩
        intro hpc'
        refine height_next1 hbal hget hH ?_ (by simp [instrSuccs]) hpc'
        simp only [instrPops, instrPushes, List.length_cons]
        omega
      | ldfun sym =>
        exact invM_ofExcept hbal hget hH hlen hch hstep (by simp [instrSuccs])
          fun st hok => by
            have := ins_ldfun_len hok
            simp only [instrPops, instrPushes]
            omega
      | ldvar sym =>
        exact invM_ofExcept hbal hget hH hlen hch hstep (by simp [instrSuccs])
          fun st hok => by
            have := ins_ldvar_len hok
            simp only [instrPops, instrPushes]
            omega
      | ldddvar n =>
        exact invM_ofExcept hbal hget hH hlen hch hstep (by simp [instrSuccs])
          fun st hok => by
            have := ins_ldddvar_len hok
            simp only [instrPops, instrPushes]
            omega
      | callI =>
        cases hstk : s.stack with
        | nil => rw [hstk] at hstep; cases hstep
        | cons cls rest =>
          rw [hstk] at hstep
          dsimp only at hstep
          split at hstep
          case isTrue =>
            refine hostK_inv hbal hget hH hlen hch (by simp [instrSuccs])
              ?_ hstep
            have hsl : s.stack.length = rest.length + 1 := by rw [hstk]; rfl
            simp only [instrPops, instrPushes]
            omega
          case isFalse => cases hstep
      | callStack nargs call =>
        dsimp only at hstep
        cases hcallee : s.stack.get? nargs with
        | none => rw [hcallee] at hstep; cases hstep
        | some callee =>
          rw [hcallee] at hstep
          dsimp only at hstep
          cases hrw : doCallStackRewrite call nargs s.stack with
          | error e => rw [hrw] at hstep; cases hstep
          | ok c2 =>
            rw [hrw] at hstep
            dsimp only at hstep
            split at hstep
            case isTrue =>
              refine hostK_inv hbal hget hH hlen hch (by simp [instrSuccs])
                ?_ hstep
              have hlt : nargs < s.stack.length :=
                (List.get?_eq_some.mp hcallee).1
              have hdl := List.length_drop (nargs + 1) s.stack
              simp only [instrPops, instrPushes]
              omega
            case isFalse => cases hstep
      | dispatchI sel =>
        cases hstk : s.stack with
        | nil => rw [hstk] at hstep; cases hstep
        | cons obj rest =>
          rw [hstk] at hstep
          dsimp only at hstep
          split at hstep
          case isTrue =>
            refine hostK_inv hbal hget hH hlen hch (by simp [instrSuccs])
              ?_ hstep
            have hsl : s.stack.length = rest.length + 1 := by rw [hstk]; rfl
            simp only [instrPops, instrPushes]
            omega
          case isFalse => cases hstep
      | promiseI pf =>
        cases hstep
        refine ⟨?_, hch⟩
        intro hpc'
        refine height_next1 hbal hget hH ?_ (by simp [instrSuccs]) hpc'
        simp only [instrPops, instrPushes, List.length_cons]
        omega
      | pushCode ci =>
        cases hstep
        refine ⟨?_, hch⟩
        intro hpc'
        refine height_next1 hbal hget hH ?_ (by simp [instrSuccs]) hpc'
        simp only [instrPops, instrPushes, List.length_cons]
        omega
      | close =>
        exact invM_ofExcept hbal hget hH hlen hch hstep (by simp [instrSuccs])
          fun st hok => by
            have := ins_close_len hok
            simp only [instrPops, instrPushes]
            omega
      | force =>
        exact invM_ofExcept hbal hget hH hlen hch hstep (by simp [instrSuccs])
          fun st hok => by
            have := ins_force_len hok
            simp only [instrPops, instrPushes]
            omega
      | pop =>
        exact invM_ofExcept hbal hget hH hlen hch hstep (by simp [instrSuccs])
          fun st hok => by
            have := ins_pop_len hok
            simp only [instrPops, instrPushes]
            omega
      | asast =>
        exact invM_ofExcept hbal hget hH hlen hch hstep (by simp [instrSuccs])
          fun st hok => by
            have := ins_asast_len hok
            simp only [instrPops, instrPushes]
            omega
      | stvar sym =>
        cases hstk : s.stack with
        | nil => rw [hstk] at hstep; cases hstep
        | cons v rest =>
          rw [hstk] at hstep
          dsimp only at hstep
          cases hdv : defineVarR sym v s.env with
          | error e => rw [hdv] at hstep; cases hstep
          | ok env2 =>
            rw [hdv] at hstep
            cases hstep
            refine ⟨?_, hch⟩
            intro hpc'
            refine height_next1 hbal hget hH ?_ (by simp [instrSuccs]) hpc'
            have hsl : s.stack.length = rest.length + 1 := by rw [hstk]; rfl
            simp only [instrPops, instrPushes]
            omega
      | asbool =>
        refine invM_ofExcept hbal hget hH hlen hch hstep (by simp [instrSuccs])
          fun st hok => ?_
        cases hr : ins_asbool s.stack with
        | ok p =>
          obtain ⟨w, o⟩ := p
          rw [hr] at hok
          cases hok
          have := ins_asbool_len hr
          simp only [instrPops, instrPushes]
          omega
        | error e => rw [hr] at hok; cases hok
      | brobj off =>
        refine invM_ofBranch hbal hget hH hlen hch hstep ?_
        intro t st hok
        obtain ⟨h1, h2, h3⟩ := ins_brobj_ok hok
        constructor
        · simp only [instrPops, instrPushes]
          omega
        · simp only [instrSuccs, List.mem_cons, List.mem_singleton]
          tauto
      | endcontext =>
        cases hstk : s.stack with
        | nil => rw [hstk] at hstep; cases hstep
        | cons c rest =>
          rw [hstk] at hstep
          dsimp only at hstep
          split at hstep
          case isTrue =>
            cases hstep
            constructor
            · intro hpc'
              refine height_next1 hbal hget hH ?_ (by simp [instrSuccs]) hpc'
              have hsl : s.stack.length = rest.length + 1 := by rw [hstk]; rfl
              simp only [instrPops, instrPushes]
              omega
            · intro p cl hm
              exact hch p cl (List.mem_of_mem_tail hm)
          case isFalse => cases hstep
      | brtrue off =>
        refine invM_ofBranch hbal hget hH hlen hch hstep ?_
        intro t st hok
        obtain ⟨h1, h2, h3⟩ := ins_brtrue_ok hok
        constructor
        · simp only [instrPops, instrPushes]
          omega
        · simp only [instrSuccs, List.mem_cons, List.mem_singleton]
          tauto
      | brfalse off =>
        refine invM_ofBranch hbal hget hH hlen hch hstep ?_
        intro t st hok
        obtain ⟨h1, h2, h3⟩ := ins_brfalse_ok hok
        constructor
        · simp only [instrPops, instrPushes]
          omega
        · simp only [instrSuccs, List.mem_cons, List.mem_singleton]
          tauto
      | br off =>
        refine invM_ofBranch hbal hget hH hlen hch hstep ?_
        intro t st hok
        cases hok
        constructor
        · simp [instrPops, instrPushes]
        · simp [instrSuccs]
      | dup =>
        exact invM_ofExcept hbal hget hH hlen hch hstep (by simp [instrSuccs])
          fun st hok => by
            have := ins_dup_len hok
            simp only [instrPops, instrPushes]
            omega
      | add =>
        exact invM_ofExcept hbal hget hH hlen hch hstep (by simp [instrSuccs])
          fun st hok => by simp [ins_add] at hok
      | sub =>
        exact invM_ofExcept hbal hget hH hlen hch hstep (by simp [instrSuccs])
          fun st hok => by simp [ins_sub] at hok
      | lt =>
        exact invM_ofExcept hbal hget hH hlen hch hstep (by simp [instrSuccs])
          fun st hok => by
            have := ins_lt_len hok
            simp only [instrPops, instrPushes]
            omega
      | swap =>
        exact invM_ofExcept hbal hget hH hlen hch hstep (by simp [instrSuccs])
          fun st hok => by
            have := ins_swap_len hok
            simp only [instrPops, instrPushes]
            omega
      | put n =>
        exact invM_ofExcept hbal hget hH hlen hch hstep (by simp [instrSuccs])
          fun st hok => by
            have := ins_put_len hok
            simp only [instrPops, instrPushes]
            omega
      | pick n =>
        exact invM_ofExcept hbal hget hH hlen hch hstep (by simp [instrSuccs])
          fun st hok => by
            have := ins_pick_len hok
            simp only [instrPops, instrPushes]
            omega
      | isI tI =>
        exact invM_ofExcept hbal hget hH hlen hch hstep (by simp [instrSuccs])
          fun st hok => by
            have := ins_is_len hok
            simp only [instrPops, instrPushes]
            omega
      | isspecial sym =>
        exact invM_ofExcept hbal hget hH hlen hch hstep (by simp [instrSuccs])
          fun st hok => by
            have := ins_isspecial_len hok
            subst this
            simp [instrPops, instrPushes]
      | isfun =>
        exact invM_ofExcept hbal hget hH hlen hch hstep (by simp [instrSuccs])
          fun st hok => by
            have := ins_isfun_len hok
            simp only [instrPops, instrPushes]
            omega
      | inc =>
        exact invM_ofExcept hbal hget hH hlen hch hstep (by simp [instrSuccs])
          fun st hok => by
            have := ins_inc_len hok
            simp only [instrPops, instrPushes]
            omega
      | dup2 =>
        exact invM_ofExcept hbal hget hH hlen hch hstep (by simp [instrSuccs])
          fun st hok => by
            have := ins_dup2_len hok
            simp only [instrPops, instrPushes]
            omega
      | testBounds =>
        exact invM_ofExcept hbal hget hH hlen hch hstep (by simp [instrSuccs])
          fun st hok => by
            have := ins_test_bounds_len hok
            simp only [instrPops, instrPushes]
            omega
      | invisible =>
        cases hstep
        refine ⟨?_, hch⟩
        intro hpc'
        refine height_next1 hbal hget hH ?_ (by simp [instrSuccs]) hpc'
        simp only [instrPops, instrPushes]
        omega
      | extract1 =>
        cases hstk : s.stack with
        | nil => rw [hstk] at hstep; cases hstep
        | cons idx r1 =>
          cases r1 with
          | nil => rw [hstk] at hstep; cases hstep
          | cons val rest =>
            rw [hstk] at hstep
            dsimp only at hstep
            cases hfast : ins_extract1_fast host.namesAttr host.anyAttr
                host.maybeShared val idx with
            | error e => rw [hfast] at hstep; cases hstep
            | ok o =>
              rw [hfast] at hstep
              cases o with
              | some res =>
                cases hstep
                refine ⟨?_, hch⟩
                intro hpc'
                refine height_next1 hbal hget hH ?_ (by simp [instrSuccs]) hpc'
                have hsl : s.stack.length = rest.length + 2 := by rw [hstk]; rfl
                simp only [instrPops, instrPushes, List.length_cons]
                omega
              | none =>
                refine hostK_inv hbal hget hH hlen hch (by simp [instrSuccs])
                  ?_ hstep
                have hsl : s.stack.length = rest.length + 2 := by rw [hstk]; rfl
                simp only [instrPops, instrPushes]
                omega
      | subset1 =>
        cases hstk : s.stack with
        | nil => rw [hstk] at hstep; cases hstep
        | cons idx r1 =>
          cases r1 with
          | nil => rw [hstk] at hstep; cases hstep
          | cons val rest =>
            rw [hstk] at hstep
            dsimp only at hstep
            refine hostK_inv hbal hget hH hlen hch (by simp [instrSuccs])
              ?_ hstep
            have hsl : s.stack.length = rest.length + 2 := by rw [hstk]; rfl
            simp only [instrPops, instrPushes]
            omega
      | uniq =>
        exact invM_ofExcept hbal hget hH hlen hch hstep (by simp [instrSuccs])
          fun st hok => by
            have := ins_uniq_len hok
            simp only [instrPops, instrPushes]
            omega
      | aslogical =>
        exact invM_ofExcept hbal hget hH hlen hch hstep (by simp [instrSuccs])
          fun st hok => by
            have := ins_aslogical_len hok
            simp only [instrPops, instrPushes]
            omega
      | lglAnd =>
        exact invM_ofExcept hbal hget hH hlen hch hstep (by simp [instrSuccs])
          fun st hok => by
            have := ins_lgl_and_len hok
            simp only [instrPops, instrPushes]
            omega
      | lglOr =>
        exact invM_ofExcept hbal hget hH hlen hch hstep (by simp [instrSuccs])
          fun st hok => by
            have := ins_lgl_or_len hok
            simp only [instrPops, instrPushes]
            omega
      | beginloop off =>
        cases hstep
        constructor
        · intro hpc'
          refine height_next1 hbal hget hH ?_ (by simp [instrSuccs]) hpc'
          simp only [instrPops, instrPushes, List.length_cons]
          omega
        · intro p cl hm
          rcases List.mem_cons.mp hm with heq | hm2
          · cases heq
            exact ⟨off, h, hget, hH, by omega⟩
          · exact hch p cl hm2
      | ret => cases hstep
  · intro stk hstep
    unfold step at hstep
    cases hget : code.get? s.pc with
    | none => rw [hget] at hstep; cases hstep
    | some i =>
      rw [hget] at hstep
      have hpc : s.pc < code.length := (List.get?_eq_some.mp hget).1
      obtain ⟨h, hH, hlen⟩ := hht hpc
      cases i with
      | ret =>
        cases hstep
        obtain ⟨_, hret, _⟩ := balanced_facts hbal hget hH
        rw [hlen, hret rfl]
      | push v => cases hstep
      | promiseI pf => cases hstep
      | pushCode ci => cases hstep
      | invisible => cases hstep
      | beginloop off => cases hstep
      | ldfun sym => exact absurd hstep ofExcept_ne_done
      | ldvar sym => exact absurd hstep ofExcept_ne_done
      | ldddvar n => exact absurd hstep ofExcept_ne_done
      | close => exact absurd hstep ofExcept_ne_done
      | force => exact absurd hstep ofExcept_ne_done
      | pop => exact absurd hstep ofExcept_ne_done
      | asast => exact absurd hstep ofExcept_ne_done
      | asbool => exact absurd hstep ofExcept_ne_done
      | dup => exact absurd hstep ofExcept_ne_done
      | add => exact absurd hstep ofExcept_ne_done
      | sub => exact absurd hstep ofExcept_ne_done
      | lt => exact absurd hstep ofExcept_ne_done
      | swap => exact absurd hstep ofExcept_ne_done
      | put n => exact absurd hstep ofExcept_ne_done
      | pick n => exact absurd hstep ofExcept_ne_done
      | isI tI => exact absurd hstep ofExcept_ne_done
      | isspecial sym => exact absurd hstep ofExcept_ne_done
      | isfun => exact absurd hstep ofExcept_ne_done
      | inc => exact absurd hstep ofExcept_ne_done
      | dup2 => exact absurd hstep ofExcept_ne_done
      | testBounds => exact absurd hstep ofExcept_ne_done
      | uniq => exact absurd hstep ofExcept_ne_done
      | aslogical => exact absurd hstep ofExcept_ne_done
      | lglAnd => exact absurd hstep ofExcept_ne_done
      | lglOr => exact absurd hstep ofExcept_ne_done
      | brobj off => exact absurd hstep ofBranch_ne_done
      | brtrue off => exact absurd hstep ofBranch_ne_done
      | brfalse off => exact absurd hstep ofBranch_ne_done
      | br off => exact absurd hstep ofBranch_ne_done
      | callI =>
        cases hstk : s.stack with
        | nil => rw [hstk] at hstep; cases hstep
        | cons cls rest =>
          rw [hstk] at hstep
          dsimp only at hstep
          split at hstep
          case isTrue => exact (hostK_done_false hstep).elim
          case isFalse => cases hstep
      | callStack nargs call =>
        dsimp only at hstep
        cases hcallee : s.stack.get? nargs with
        | none => rw [hcallee] at hstep; cases hstep
        | some callee =>
          rw [hcallee] at hstep
          dsimp only at hstep
          cases hrw : doCallStackRewrite call nargs s.stack with
          | error e => rw [hrw] at hstep; cases hstep
          | ok c2 =>
            rw [hrw] at hstep
            dsimp only at hstep
            split at hstep
            case isTrue => exact (hostK_done_false hstep).elim
            case isFalse => cases hstep
      | dispatchI sel =>
        cases hstk : s.stack with
        | nil => rw [hstk] at hstep; cases hstep
        | cons obj rest =>
          rw [hstk] at hstep
          dsimp only at hstep
          split at hstep
          case isTrue => exact (hostK_done_false hstep).elim
          case isFalse => cases hstep
      | stvar sym =>
        cases hstk : s.stack with
        | nil => rw [hstk] at hstep; cases hstep
        | cons v rest =>
          rw [hstk] at hstep
          dsimp only at hstep
          cases hdv : defineVarR sym v s.env with
          | error e => rw [hdv] at hstep; cases hstep
          | ok env2 => rw [hdv] at hstep; cases hstep
      | endcontext =>
        cases hstk : s.stack with
        | nil => rw [hstk] at hstep; cases hstep
        | cons c rest =>
          rw [hstk] at hstep
          dsimp only at hstep
          split at hstep
          case isTrue => cases hstep
          case isFalse => cases hstep
      | extract1 =>
        cases hstk : s.stack with
        | nil => rw [hstk] at hstep; cases hstep
        | cons idx r1 =>
          cases r1 with
          | nil => rw [hstk] at hstep; cases hstep
          | cons val rest =>
            rw [hstk] at hstep
            dsimp only at hstep
            cases hfast : ins_extract1_fast host.namesAttr host.anyAttr
                host.maybeShared val idx with
            | error e => rw [hfast] at hstep; cases hstep
            | ok o =>
              rw [hfast] at hstep
              cases o with
              | some res => cases hstep
              | none => exact (hostK_done_false hstep).elim
      | subset1 =>
        cases hstk : s.stack with
        | nil => rw [hstk] at hstep; cases hstep
        | cons idx r1 =>
          cases r1 with
          | nil => rw [hstk] at hstep; cases hstep
          | cons val rest =>
            rw [hstk] at hstep
            dsimp only at hstep
            exact (hostK_done_false hstep).elim

/-- The initial state of a frame satisfies the invariant relative to its
own entry stack length: pc 0, empty loop-context chain, no host calls
yet. -/
lemma InvM_start {code : List Instr} {H : List (Option Nat)}
    (hbal : stackBalanced code H = true) (env : REnv) (s₀ : List RVal) :
    InvM code H s₀.length ⟨0, s₀, env, [], 0⟩ := by
  constructor
  · intro hlt
    refine ⟨0, ?_, by simp⟩
    unfold stackBalanced at hbal
    rw [Bool.and_eq_true, Bool.or_eq_true] at hbal
    cases hbal.1 with
    | inl hc =>
      exfalso
      have hce : code = [] := of_decide_eq_true hc
      rw [hce] at hlt
      simp at hlt
    | inr hH => exact of_decide_eq_true hH
  · intro p cl hm
    simp at hm

/-- Any normally-completing run from an invariant state ends with the
stack exactly one above the entry length. -/
lemma run_height {host : Host} {code : List Instr} {H : List (Option Nat)}
    {entry : Nat} (hbal : stackBalanced code H = true) :
    ∀ (fuel : Nat) (s : MState), InvM code H entry s →
      ∀ stk, run host code fuel s = some (.ok stk) →
        stk.length = entry + 1 := by
  intro fuel
  induction fuel with
  | zero =>
    intro s _ stk hrun
    simp [run] at hrun
  | succ n ih =>
    intro s hinv stk hrun
    unfold run at hrun
    cases hstep : step host code s with
    | next s' =>
      rw [hstep] at hrun
      exact ih s' ((step_preserve hbal hinv).1 s' hstep) stk hrun
    | done stk2 =>
      rw [hstep] at hrun
      simp only [Option.some.injEq, Except.ok.injEq] at hrun
      subst hrun
      exact (step_preserve hbal hinv).2 _ hstep
    | err e =>
      rw [hstep] at hrun
      simp at hrun

/-! ## The compiler (`Compiler.cpp`)

The compiler walks source ASTs, emitting bytecode into a per-code-object
`CodeStream`.  Forward labels (`cs.mkLabel()`) are modelled as explicitly
numbered label markers in the emitted stream, allocated from a per-stream
counter, exactly as the `CodeStream` hands out label ids before `finalize`
resolves them to offsets.  Promise bodies are compiled into their own
streams (`ctx.push`/`ctx.pop`); the indices handed out by `finalize` are
modelled by a shared counter.  The `cs.addAst(...)` source-map entries
attach ASTs to instructions in a parallel table and do not contribute
instructions to the stream; they are not modelled.  Compilation is
fuel-bounded (`none` = fuel exhausted or a compile-time error). -/

mutual

/-- Source ASTs as the compiler matches on them: `sym` a `SYMSXP`,
`missingA` the interned `R_MissingArg`, `dots` the interned `R_DotsSymbol`
(both also symbols in the host), `cnst` any other non-language value,
`promA` a `PROMSXP` embedded in the AST (the compiler forces it and emits
the forced value), `lang` a `LANGSXP` call. -/
inductive RAst where
  | sym (s : String)
  | missingA
  | dots
  | cnst (v : RVal)
  | promA (forced : RVal)
  | lang (fn : RAst) (args : RAstArgs)
deriving DecidableEq, Repr

/-- Argument cells of a `LANGSXP` at the AST level (value plus `TAG`). -/
inductive RAstArgs where
  | nil
  | cons (arg : RAst) (tag : Option String) (rest : RAstArgs)
deriving DecidableEq, Repr

end

namespace RAstArgs

/-- Number of argument cells. -/
def length : RAstArgs → Nat
  | .nil => 0
  | .cons _ _ rest => rest.length + 1

end RAstArgs

/-- `DDVAL`: symbols of the form `..n` (two dots followed by digits). -/
def isDD (s : String) : Bool :=
  s.take 2 = ".." && s.length > 2 && (s.drop 2).all Char.isDigit

/-- The symbol name of an AST node when it is a `SYMSXP` (`R_DotsSymbol` is
the symbol `...`, `R_MissingArg` the empty symbol). -/
def astSymName? : RAst → Option String
  | .sym s => some s
  | .dots => some "..."
  | .missingA => some ""
  | _ => none

/-- An entry of the argument-index vector carried by `call_`/`dispatch_`:
a compiled promise index, or the `DOTS_ARG_IDX`/`MISSING_ARG_IDX`
sentinels. -/
inductive ArgC where
  | prom (i : Nat)
  | dotsC
  | missingC
deriving DecidableEq, Repr

/-- Bytecode as emitted by the compiler, before label resolution: the `BC`
constructors streamed via `cs << ...`, plus `label` markers for bound
labels. -/
inductive BCL where
  | isspecial (s : String)
  | asLogical
  | asbool
  | dup | dup2 | swap | popB | uniq | invisible | endcontext | ret | isfun
  | lglAnd | lglOr
  | brfalse (l : Nat) | brtrue (l : Nat) | br (l : Nat) | brobj (l : Nat)
  | beginloop (l : Nat)
  | pushV (v : RVal)
  | pushCode (i : Nat)
  | promise (i : Nat)
  | ldvar (s : String) | ldddvar (s : String) | ldfun (s : String)
  | stvar (s : String)
  | isT (t : SexpType)
  | extract1 | subset1
  | pick (n : Nat) | put (n : Nat)
  | callBC (args : List ArgC) (names : List (Option String))
  | callStack (nargs : Nat) (names : List (Option String))
  | dispatchBC (selector : String) (args : List ArgC) (names : List (Option String))
  | label (l : Nat)
deriving DecidableEq, Repr

/-- Compilation state: the current stream's next label id (`cs.mkLabel()`),
the next promise-code index handed out by `finalize`, the current code
context's loop stack (`(next_, break_)` pairs, innermost first), and the
promise streams finalized so far. -/
structure CompSt where
  nextLabel : Nat
  nextProm : Nat
  loops : List (Nat × Nat)
  promStreams : List (List BCL)
deriving DecidableEq, Repr

/-- The verification loop at the top of the `<-` branch of
`compileSpecialCall`: walk the left-hand side; a call whose head is a symbol
descends into its first argument (descending into `R_NilValue` when the call
has no arguments, which then fails the match); a symbol or string terminates
successfully; a call with a non-symbol head or any other node means the
assignment cannot be rewritten statically (`return false`).  `none` = out of
fuel. -/
def checkAssignLhs : Nat → RAst → Option Bool
  | 0, _ => none
  | fuel + 1, l =>
    match astSymName? l with
    | some _ => some true
    | none =>
      match l with
      | .lang fn largs =>
        match astSymName? fn with
        | some _ =>
          match largs with
          | .nil => some false
          | .cons a _ _ => checkAssignLhs fuel a
        | none => some false
      | .cnst (.strV _) => some true
      | _ => some false

/-- The `lhsParts` gathering loop of the `<-` branch: record each
intermediate getter call from outermost inwards and stop at the target
symbol (a string target is interned as a symbol, with an assertion that its
length is 1).  Returns the parts (outermost first, the target symbol last)
and the target name.  `none` models `errorcall` (invalid left-hand side),
the length assertion, and fuel exhaustion. -/
def gatherParts : Nat → RAst → Option (List RAst × String)
  | 0, _ => none
  | fuel + 1, l =>
    match astSymName? l with
    | some nm => some ([l], nm)
    | none =>
      match l with
      | .lang _ largs =>
        match largs with
        | .nil => none
        | .cons a _ _ =>
          match gatherParts fuel a with
          | some (ps, t) => some (l :: ps, t)
          | none => none
      | .cnst (.strV [str]) => some ([.sym str], str)
      | _ => none

mutual

/-- `compileExpr` (Compiler.cpp): dispatch on the AST node type.  Calls go
to `compileCall`; symbols to the `compileGetvar` cases (`..n` loads via
`ldddvar_`, `R_MissingArg` is pushed as a constant); an embedded promise is
forced at compile time and its value emitted as a constant; anything else is
a constant (`compileConst`; its `SET_NAMED(_, 2)` is not modelled). -/
def compileExpr : Nat → RAst → CompSt → Option (List BCL × CompSt)
  | 0, _, _ => none
  | fuel + 1, e, st =>
    match e with
    | .lang fn args => compileCall fuel fn args st
    | .sym s => some ([if isDD s then .ldddvar s else .ldvar s], st)
    | .dots => some ([.ldvar "..."], st)
    | .missingA => some ([.pushV .missingArgV], st)
    | .promA forced => some ([.pushV forced], st)
    | .cnst v => some ([.pushV v], st)

/-- `compileCall` (Compiler.cpp): a symbol callee first tries
`compileSpecialCall`, then falls back to `ldfun_`; an expression callee is
compiled and checked with `isfun_`.  Arguments are compiled to promise
bodies whose indices (with the `...`/missing sentinels) are carried by the
`call_` instruction. -/
def compileCall : Nat → RAst → RAstArgs → CompSt →
    Option (List BCL × CompSt)
  | 0, _, _, _ => none
  | fuel + 1, fn, args, st =>
    match astSymName? fn with
    | some s =>
      match compileSpecialCall fuel s args st with
      | none => none
      | some (some code, st1) => some (code, st1)
      | some (none, st1) =>
        match compileCallArgs fuel args st1 with
        | none => none
        | some (idxs, names, st2) =>
          some ([.ldfun s, .callBC idxs names], st2)
    | none =>
      match compileExpr fuel fn st with
      | none => none
      | some (cfn, st1) =>
        match compileCallArgs fuel args st1 with
        | none => none
        | some (idxs, names, st2) =>
          some (cfn ++ [.isfun, .callBC idxs names], st2)

/-- The argument loop shared by `compileCall` and `compileDispatch`:
`...` becomes `DOTS_ARG_IDX`, a missing argument `MISSING_ARG_IDX`, anything
else a compiled promise body; tags are collected in parallel. -/
def compileCallArgs : Nat → RAstArgs → CompSt →
    Option (List ArgC × List (Option String) × CompSt)
  | 0, _, _ => none
  | fuel + 1, args, st =>
    match args with
    | .nil => some ([], [], st)
    | .cons a tag rest =>
      if a = RAst.dots then
        match compileCallArgs fuel rest st with
        | none => none
        | some (idxs, names, st1) => some (.dotsC :: idxs, none :: names, st1)
      else if a = RAst.missingA then
        match compileCallArgs fuel rest st with
        | none => none
        | some (idxs, names, st1) =>
          some (.missingC :: idxs, none :: names, st1)
      else
        match compilePromise fuel a st with
        | none => none
        | some (i, st1) =>
          match compileCallArgs fuel rest st1 with
          | none => none
          | some (idxs, names, st2) =>
            some (.prom i :: idxs, tag :: names, st2)

/-- `compileDispatch` (Compiler.cpp): promise-compile every argument
(including the receiver, with the same loop as `compileCall`) and emit a
`dispatch_` carrying the selector. -/
def compileDispatch : Nat → String → RAstArgs → CompSt →
    Option (List BCL × CompSt)
  | 0, _, _, _ => none
  | fuel + 1, selector, args, st =>
    match compileCallArgs fuel args st with
    | none => none
    | some (idxs, names, st1) =>
      some ([.dispatchBC selector idxs names], st1)

/-- `compilePromise` (Compiler.cpp): compile `exp` into a fresh code context
(fresh label counter, empty loop stack) ending in `ret_`; `finalize` hands
out the next code index. -/
def compilePromise : Nat → RAst → CompSt → Option (Nat × CompSt)
  | 0, _, _ => none
  | fuel + 1, e, st =>
    match compileExpr fuel e ⟨0, st.nextProm, [], st.promStreams⟩ with
    | none => none
    | some (code, st1) =>
      some (st1.nextProm,
            ⟨st.nextLabel, st1.nextProm + 1, st.loops,
             st1.promStreams ++ [code ++ [.ret]]⟩)

/-- One getter/setter argument sublist of the `<-` branch (both loops share
this body): `...`/missing arguments are pushed as constants with no name;
a symbol or call argument is wrapped in a promise; any other argument is
compiled inline; tags are collected. -/
def compileAccessorArgs : Nat → RAstArgs → CompSt →
    Option (List BCL × List (Option String) × CompSt)
  | 0, _, _ => none
  | fuel + 1, args, st =>
    match args with
    | .nil => some ([], [], st)
    | .cons a tag rest =>
      if a = RAst.dots ∨ a = RAst.missingA then
        match compileAccessorArgs fuel rest st with
        | none => none
        | some (c, ns, st1) =>
          some ((.pushV (if a = RAst.dots then .symV "..." else .missingArgV)) :: c,
                none :: ns, st1)
      else
        match a with
        | .lang _ _ | .sym _ =>
          match compilePromise fuel a st with
          | none => none
          | some (p, st1) =>
            match compileAccessorArgs fuel rest st1 with
            | none => none
            | some (c, ns, st2) => some (.promise p :: c, tag :: ns, st2)
        | _ =>
          match compileExpr fuel a st with
          | none => none
          | some (ce, st1) =>
            match compileAccessorArgs fuel rest st1 with
            | none => none
            | some (c, ns, st2) => some (ce ++ c, tag :: ns, st2)

/-- One getter of the `<-` branch: a symbol loads via `ldvar_`; a call loads
the accessor with `ldfun_`, swaps it under the target already on the stack,
compiles the remaining arguments and emits `call_stack_` (whose attached
rewritten AST, carrying the getter placeholder, lives in the source map and
is not modelled). -/
def compileOneGetter : Nat → RAst → CompSt → Option (List BCL × CompSt)
  | 0, _, _ => none
  | fuel + 1, g, st =>
    match astSymName? g with
    | some nm => some ([.ldvar nm], st)
    | none =>
      match g with
      | .lang fn largs =>
        match astSymName? fn with
        | none => none
        | some nm =>
          match largs with
          | .nil => none
          | .cons _ _ rest =>
            match compileAccessorArgs fuel rest st with
            | none => none
            | some (argCode, ns, st1) =>
              some ([.ldfun nm, .swap] ++ argCode ++
                    [.callStack (ns.length + 1) (none :: ns)], st1)
      | _ => none

/-- The getter emission loop of the `<-` branch, over
`lhsParts[size-1] .. lhsParts[1]` (innermost first): each getter except the
last is followed by `dup_`, `uniq_`, `swap_`; the last only by `uniq_`. -/
def compileGetterSeq : Nat → List RAst → CompSt → Option (List BCL × CompSt)
  | 0, _, _ => none
  | _ + 1, [], st => some ([], st)
  | fuel + 1, [g], st =>
    match compileOneGetter fuel g st with
    | none => none
    | some (c, st1) => some (c ++ [.uniq], st1)
  | fuel + 1, g :: g2 :: rest, st =>
    match compileOneGetter fuel g st with
    | none => none
    | some (c, st1) =>
      match compileGetterSeq fuel (g2 :: rest) st1 with
      | none => none
      | some (cr, st2) => some (c ++ [.dup, .uniq, .swap] ++ cr, st2)

/-- One setter of the `<-` branch: load `name<-` with `ldfun_`, push it two
slots down with `put_ 2`, compile the remaining arguments, pull the value
up with `pick_` when arguments were pushed, and emit `call_stack_` (names
ending in the `value` tag, its rewritten-AST attachment not modelled)
followed by `uniq_`. -/
def compileOneSetter : Nat → RAst → CompSt → Option (List BCL × CompSt)
  | 0, _, _ => none
  | fuel + 1, g, st =>
    match g with
    | .lang fn largs =>
      match astSymName? fn with
      | none => none
      | some nm =>
        match largs with
        | .nil => none
        | .cons _ _ rest =>
          match compileAccessorArgs fuel rest st with
          | none => none
          | some (argCode, ns, st1) =>
            some ([.ldfun (nm ++ "<-"), .put 2] ++ argCode ++
                  (if rest.length > 0 then [.pick rest.length] else []) ++
                  [.callStack (ns.length + 2) ((none :: ns) ++ [some valueTag]),
                   .uniq], st1)
    | _ => none

/-- The setter emission loop of the `<-` branch, over
`lhsParts[0] .. lhsParts[size-2]` (outermost first). -/
def compileSetterSeq : Nat → List RAst → CompSt → Option (List BCL × CompSt)
  | 0, _, _ => none
  | _ + 1, [], st => some ([], st)
  | fuel + 1, g :: rest, st =>
    match compileOneSetter fuel g st with
    | none => none
    | some (c, st1) =>
      match compileSetterSeq fuel rest st1 with
      | none => none
      | some (cr, st2) => some (c ++ cr, st2)

/-- `compileSpecialCall` (Compiler.cpp): inline the recognized special
forms, in source order.  The result is `some (none, st)` when the call is
not recognized (`return false`: compiled as a normal call), `some (some c,
st)` when the special form was inlined with emission `c`, and `none` on a
compile-time error (a failed `assert`, an `errorcall`, or fuel exhaustion).
The disabled `for` branch (`if (false && ...)`) is dead code and omitted. -/
def compileSpecialCall : Nat → String → RAstArgs → CompSt →
    Option (Option (List BCL) × CompSt)
  | 0, _, _, _ => none
  | fuel + 1, s, args, st =>
    if s = "&&" ∧ args.length = 2 then
      match args with
      | .cons a0 _ (.cons a1 _ _) =>
        let nextBranch := st.nextLabel
        let st1 : CompSt := ⟨st.nextLabel + 1, st.nextProm, st.loops, st.promStreams⟩
        match compileExpr fuel a0 st1 with
        | none => none
        | some (c0, st2) =>
          match compileExpr fuel a1 st2 with
          | none => none
          | some (c1, st3) =>
            some (some ([.isspecial s] ++ c0 ++
                        [.asLogical, .dup, .brfalse nextBranch] ++ c1 ++
                        [.asLogical, .lglAnd, .label nextBranch]), st3)
      | _ => none
    else if s = "||" ∧ args.length = 2 then
      match args with
      | .cons a0 _ (.cons a1 _ _) =>
        let nextBranch := st.nextLabel
        let st1 : CompSt := ⟨st.nextLabel + 1, st.nextProm, st.loops, st.promStreams⟩
        match compileExpr fuel a0 st1 with
        | none => none
        | some (c0, st2) =>
          match compileExpr fuel a1 st2 with
          | none => none
          | some (c1, st3) =>
            some (some ([.isspecial s] ++ c0 ++
                        [.asLogical, .dup, .brtrue nextBranch] ++ c1 ++
                        [.asLogical, .lglOr, .label nextBranch]), st3)
      | _ => none
    else if s = "quote" ∧ args.length = 1 then
      match args with
      | .cons a0 _ _ =>
        match compilePromise fuel a0 st with
        | none => none
        | some (i, st1) => some (some [.isspecial s, .pushCode i], st1)
      | _ => none
    else if s = "<-" then
      if args.length = 2 then
        match args with
        | .cons lhs _ (.cons rhs _ _) =>
          match checkAssignLhs fuel lhs with
          | none => none
          | some false => some (none, st)
          | some true =>
            match astSymName? lhs with
            | some nm =>
              match compileExpr fuel rhs st with
              | none => none
              | some (crhs, st1) =>
                some (some ([.isspecial s] ++ crhs ++
                            [.dup, .stvar nm, .invisible]), st1)
            | none =>
              match compileExpr fuel rhs st with
              | none => none
              | some (crhs, st1) =>
                match gatherParts fuel lhs with
                | none => none
                | some (ps, target) =>
                  match compileGetterSeq fuel ((ps.drop 1).reverse) st1 with
                  | none => none
                  | some (gc, st2) =>
                    match compileSetterSeq fuel ps.dropLast st2 with
                    | none => none
                    | some (sc, st3) =>
                      some (some ([.isspecial s] ++ crhs ++ [.dup] ++ gc ++
                                  [.pick (ps.length - 1)] ++ sc ++
                                  [.stvar target, .invisible]), st3)
        | _ => none
      else none
    else if s = ".Internal" then
      some (none, st)
    else if s = "is.null" ∧ args.length = 1 then
      match args with
      | .cons a0 _ _ =>
        match compileExpr fuel a0 st with
        | none => none
        | some (c0, st1) =>
          some (some ([.isspecial s] ++ c0 ++ [.isT .NILSXP]), st1)
      | _ => none
    else if s = "is.list" ∧ args.length = 1 then
      match args with
      | .cons a0 _ _ =>
        match compileExpr fuel a0 st with
        | none => none
        | some (c0, st1) =>
          some (some ([.isspecial s] ++ c0 ++ [.isT .VECSXP]), st1)
      | _ => none
    else if s = "is.pairlist" ∧ args.length = 1 then
      match args with
      | .cons a0 _ _ =>
        match compileExpr fuel a0 st with
        | none => none
        | some (c0, st1) =>
          some (some ([.isspecial s] ++ c0 ++ [.isT .LISTSXP]), st1)
      | _ => none
    else if (s = "[[" ∨ s = "[") ∧ args.length = 2 then
      match args with
      | .cons lhs _ (.cons idx tagIdx _) =>
        if idx = RAst.dots ∨ idx = RAst.missingA ∨ tagIdx ≠ none then
          some (none, st)
        else
          let objBranch := st.nextLabel
          let nextBranch := st.nextLabel + 1
          let st1 : CompSt := ⟨st.nextLabel + 2, st.nextProm, st.loops, st.promStreams⟩
          match compileExpr fuel lhs st1 with
          | none => none
          | some (clhs, st2) =>
            match compileExpr fuel idx st2 with
            | none => none
            | some (cidx, st3) =>
              match compileDispatch fuel s args st3 with
              | none => none
              | some (cdisp, st4) =>
                some (some ([.isspecial s] ++ clhs ++ [.brobj objBranch] ++
                            cidx ++ [if s = "[[" then .extract1 else .subset1] ++
                            [.br nextBranch, .label objBranch] ++ cdisp ++
                            [.label nextBranch]), st4)
      | _ => none
    else if s = "while" then
      if args.length = 2 then
        match args with
        | .cons cond _ (.cons body _ _) =>
          let loopBranch := st.nextLabel
          let nextBranch := st.nextLabel + 1
          let st1 : CompSt := ⟨st.nextLabel + 2, st.nextProm,
                               (loopBranch, nextBranch) :: st.loops, st.promStreams⟩
          match compileExpr fuel cond st1 with
          | none => none
          | some (cc, st2) =>
            match compileExpr fuel body st2 with
            | none => none
            | some (cb, st3) =>
              some (some ([.isspecial s, .beginloop nextBranch, .label loopBranch] ++
                          cc ++ [.asbool, .brfalse nextBranch] ++ cb ++
                          [.popB, .br loopBranch, .label nextBranch, .endcontext,
                           .pushV .nilV, .invisible]),
                    ⟨st3.nextLabel, st3.nextProm, st3.loops.tail, st3.promStreams⟩)
        | _ => none
      else none
    else if s = "repeat" then
      if args.length = 1 then
        match args with
        | .cons body _ _ =>
          let loopBranch := st.nextLabel
          let nextBranch := st.nextLabel + 1
          let st1 : CompSt := ⟨st.nextLabel + 2, st.nextProm,
                               (loopBranch, nextBranch) :: st.loops, st.promStreams⟩
          match compileExpr fuel body st1 with
          | none => none
          | some (cb, st2) =>
            some (some ([.isspecial s, .beginloop nextBranch, .label loopBranch] ++
                        cb ++
                        [.popB, .br loopBranch, .label nextBranch, .endcontext,
                         .pushV .nilV, .invisible]),
                  ⟨st2.nextLabel, st2.nextProm, st2.loops.tail, st2.promStreams⟩)
        | _ => none
      else none
    else if s = "next" ∧ st.loops ≠ [] then
      match st.loops with
      | (nextL, _) :: _ => some (some [.isspecial s, .br nextL], st)
      | [] => none
    else if s = "break" ∧ st.loops ≠ [] then
      match st.loops with
      | (_, breakL) :: _ => some (some [.isspecial s, .br breakL], st)
      | [] => none
    else
      some (none, st)

end


/-! # Claim theorems -/

/-! ## C3: `asbool_` boundary behaviour -/

/-- C3: for the operand on top of the stack when `asbool_` executes, a value
of length 0 errors with "argument is of length zero"; a value whose first
element converts to `NA` errors with "missing value where TRUE/FALSE needed"
when the operand is logical and "argument is not interpretable as logical"
otherwise; a value of length > 1 only warns (the length warning) and its
first element is used; in the non-error cases the operand is replaced on the
stack by the interned `TRUE`/`FALSE` value. -/
theorem claimC3_asbool (t : RVal) (rest : List RVal) :
    (t.rLength = 0 →
      ins_asbool (t :: rest) = .error (.rError "argument is of length zero")) ∧
    (0 < t.rLength → asboolCond t = none → t.isLogicalV = true →
      ins_asbool (t :: rest) =
        .error (.rError "missing value where TRUE/FALSE needed")) ∧
    (0 < t.rLength → asboolCond t = none → t.isLogicalV = false →
      ins_asbool (t :: rest) =
        .error (.rError "argument is not interpretable as logical")) ∧
    (∀ b, asboolCond t = some b → 1 < t.rLength →
      ins_asbool (t :: rest) =
        .ok ([lengthWarnMsg], (if b then RVal.trueV else RVal.falseV) :: rest)) ∧
    (∀ b, asboolCond t = some b → t.rLength ≤ 1 →
      ins_asbool (t :: rest) =
        .ok ([], (if b then RVal.trueV else RVal.falseV) :: rest)) ∧
    (∀ x xs, t = RVal.lglV (x :: xs) → asboolCond t = x) := by
  refine ⟨?_, ?_, ?_, ?_, ?_, ?_⟩
  · intro h0
    have hc : asboolCond t = none := by
      unfold asboolCond
      rw [h0]
      simp
    dsimp only [ins_asbool]
    rw [hc, h0]
    simp
  · intro hpos hc hlgl
    dsimp only [ins_asbool]
    rw [hc]
    simp [hpos, hlgl]
  · intro hpos hc hlgl
    dsimp only [ins_asbool]
    rw [hc]
    simp [hpos, hlgl]
  · intro b hc hlen
    dsimp only [ins_asbool]
    rw [hc]
    simp [hlen]
  · intro b hc hlen
    dsimp only [ins_asbool]
    rw [hc]
    have : ¬ (t.rLength > 1) := by omega
    simp [this]
  · intro x xs ht
    subst ht
    unfold asboolCond
    cases x <;> simp [RVal.rLength, RVal.rTypeof, lgl0]

/-- Witness for C3: the length-zero error on `NULL`, the logical-`NA` error,
the non-logical error on a string, the length-2 warning with the first
element used, and the canonical push on the interned `TRUE`. -/
theorem claimC3_asbool_witness :
    ins_asbool [RVal.nilV] = .error (.rError "argument is of length zero") ∧
    ins_asbool [RVal.lglV [none]] =
      .error (.rError "missing value where TRUE/FALSE needed") ∧
    ins_asbool [RVal.strV ["maybe"]] =
      .error (.rError "argument is not interpretable as logical") ∧
    ins_asbool [RVal.realV [some 2, some 0]] =
      .ok ([lengthWarnMsg], [RVal.trueV]) ∧
    ins_asbool [RVal.falseV] = .ok ([], [RVal.falseV]) := by
  refine ⟨?_, ?_, ?_, ?_, ?_⟩
  · exact (claimC3_asbool RVal.nilV []).1 (by decide)
  · exact (claimC3_asbool (RVal.lglV [none]) []).2.1 (by decide) (by decide) (by decide)
  · exact (claimC3_asbool (RVal.strV ["maybe"]) []).2.2.1 (by decide) (by decide) (by decide)
  · exact (claimC3_asbool (RVal.realV [some 2, some 0]) []).2.2.2.1 true (by decide) (by decide)
  · exact (claimC3_asbool RVal.falseV []).2.2.2.2.1 false (by decide) (by decide)

/-! ## C4: three-valued logic of `lgl_and_` / `lgl_or_` -/

/-- Kleene conjunction as the spec states it (`NA && FALSE == FALSE`,
`NA && TRUE == NA`, `FALSE && NA == FALSE`, `TRUE && TRUE == TRUE`). -/
def kleeneAnd (a b : Option Bool) : Option Bool :=
  match a, b with
  | some false, _ => some false
  | _, some false => some false
  | some true, some true => some true
  | _, _ => none

/-- Kleene disjunction as the spec states it (`NA || TRUE == TRUE`,
`NA || FALSE == NA`, `FALSE || FALSE == FALSE`). -/
def kleeneOr (a b : Option Bool) : Option Bool :=
  match a, b with
  | some true, _ => some true
  | _, some true => some true
  | some false, some false => some false
  | _, _ => none

/-- The interned logical scalar for a three-valued result. -/
def lglEnc : Option Bool → RVal
  | some true => .trueV
  | some false => .falseV
  | none => .naLglV

/-- C4: `lgl_and_` and `lgl_or_` pop two logical scalars (`x2` from the top,
then `x1`) and push the interned three-valued-logic combination, agreeing
with the Kleene tables in every operand order. -/
theorem claimC4_lgl (v1 v2 : RVal) (x1 x2 : Option Bool) (rest : List RVal)
    (h1 : lgl0 v1 = some x1) (h2 : lgl0 v2 = some x2) :
    ins_lgl_and (v2 :: v1 :: rest) = .ok (lglEnc (kleeneAnd x1 x2) :: rest) ∧
    ins_lgl_or (v2 :: v1 :: rest) = .ok (lglEnc (kleeneOr x1 x2) :: rest) := by
  constructor
  · dsimp only [ins_lgl_and]
    rw [h1, h2]
    rcases x1 with _ | b1 <;> rcases x2 with _ | b2 <;>
      first
        | rfl
        | (cases b1 <;> first | rfl | (cases b2 <;> rfl))
        | (cases b2 <;> rfl)
  · dsimp only [ins_lgl_or]
    rw [h1, h2]
    rcases x1 with _ | b1 <;> rcases x2 with _ | b2 <;>
      first
        | rfl
        | (cases b1 <;> first | rfl | (cases b2 <;> rfl))
        | (cases b2 <;> rfl)

/-- Witness for C4: the spec's listed combinations on the interned values,
including both operand orders for `NA` with `FALSE`. -/
theorem claimC4_lgl_witness :
    ins_lgl_and [RVal.falseV, RVal.naLglV] = .ok [RVal.falseV] ∧
    ins_lgl_and [RVal.naLglV, RVal.falseV] = .ok [RVal.falseV] ∧
    ins_lgl_and [RVal.trueV, RVal.naLglV] = .ok [RVal.naLglV] ∧
    ins_lgl_and [RVal.trueV, RVal.trueV] = .ok [RVal.trueV] ∧
    ins_lgl_or [RVal.trueV, RVal.naLglV] = .ok [RVal.trueV] ∧
    ins_lgl_or [RVal.naLglV, RVal.trueV] = .ok [RVal.trueV] ∧
    ins_lgl_or [RVal.falseV, RVal.naLglV] = .ok [RVal.naLglV] ∧
    ins_lgl_or [RVal.falseV, RVal.falseV] = .ok [RVal.falseV] := by
  refine ⟨?_, ?_, ?_, ?_, ?_, ?_, ?_, ?_⟩
  · exact (claimC4_lgl RVal.naLglV RVal.falseV none (some false) [] rfl rfl).1
  · exact (claimC4_lgl RVal.falseV RVal.naLglV (some false) none [] rfl rfl).1
  · exact (claimC4_lgl RVal.naLglV RVal.trueV none (some true) [] rfl rfl).1
  · exact (claimC4_lgl RVal.trueV RVal.trueV (some true) (some true) [] rfl rfl).1
  · exact (claimC4_lgl RVal.naLglV RVal.trueV none (some true) [] rfl rfl).2
  · exact (claimC4_lgl RVal.trueV RVal.naLglV (some true) none [] rfl rfl).2
  · exact (claimC4_lgl RVal.naLglV RVal.falseV none (some false) [] rfl rfl).2
  · exact (claimC4_lgl RVal.falseV RVal.falseV (some false) (some false) [] rfl rfl).2

/-! ## C6: `ldvar_` lookup, forcing and errors -/

/-- C6: `ldvar_ k` looks the symbol up in the environment; an unbound symbol
fails with "object not found"; the missing-argument marker fails with the
missing-argument error; a promise binding is forced first and the forced
value pushed; any other bound value is pushed as is. -/
theorem claimC6_ldvar (s : String) (env : REnv) (stack : List RVal) :
    (findVarR s env = RVal.unboundV →
      ins_ldvar s env stack = .error (.rError "object not found")) ∧
    (findVarR s env = RVal.missingArgV →
      ins_ldvar s env stack =
        .error (.rError ("argument \"" ++ s ++ "\" is missing, with no default"))) ∧
    (∀ pv pf, findVarR s env = RVal.promV pv pf →
      ins_ldvar s env stack = .ok (promiseValueR pv pf :: stack)) ∧
    (∀ v, findVarR s env = v → v ≠ RVal.unboundV → v ≠ RVal.missingArgV →
      (∀ pv pf, v ≠ RVal.promV pv pf) →
      ins_ldvar s env stack = .ok (v :: stack)) := by
  refine ⟨?_, ?_, ?_, ?_⟩
  · intro h
    unfold ins_ldvar
    rw [h]
    simp
  · intro h
    unfold ins_ldvar
    rw [h]
    simp
  · intro pv pf h
    unfold ins_ldvar
    rw [h]
    simp
  · intro v hv hnu hnm hnp
    unfold ins_ldvar
    rw [hv]
    rw [if_neg hnu, if_neg hnm]
    cases v with
    | promV pv pf => exact absurd rfl (hnp pv pf)
    | _ => rfl

/-- Witness for C6 on a two-frame environment: unbound lookup, missing
marker, an unforced promise whose host force yields `1.0`, and a plain
binding. -/
theorem claimC6_ldvar_witness :
    ins_ldvar "zz" (.ext [("x", RVal.promV .unset (RVal.realV [some 1])),
                          ("m", RVal.missingArgV), ("y", RVal.trueV)] .empty) [] =
      .error (.rError "object not found") ∧
    ins_ldvar "m" (.ext [("x", RVal.promV .unset (RVal.realV [some 1])),
                          ("m", RVal.missingArgV), ("y", RVal.trueV)] .empty) [] =
      .error (.rError "argument \"m\" is missing, with no default") ∧
    ins_ldvar "x" (.ext [("x", RVal.promV .unset (RVal.realV [some 1])),
                          ("m", RVal.missingArgV), ("y", RVal.trueV)] .empty) [] =
      .ok [RVal.realV [some 1]] ∧
    ins_ldvar "y" (.ext [("x", RVal.promV .unset (RVal.realV [some 1])),
                          ("m", RVal.missingArgV), ("y", RVal.trueV)] .empty) [] =
      .ok [RVal.trueV] := by
  refine ⟨?_, ?_, ?_, ?_⟩
  · exact (claimC6_ldvar "zz" _ []).1 rfl
  · exact (claimC6_ldvar "m" _ []).2.1 rfl
  · exact (claimC6_ldvar "x" _ []).2.2.1 PrVal.unset (RVal.realV [some 1]) rfl
  · exact (claimC6_ldvar "y" _ []).2.2.2 RVal.trueV rfl (by decide) (by decide)
      (fun pv pf h => by cases h)

/-! ## C8: the `add_` / `sub_` fast paths are dead behind `assert(false)` -/

/-- C8 (code bug): the `add_` and `sub_` handlers open with `assert(false)`,
so executing either instruction aborts before the scalar-real fast path —
even on a pair of scalar reals.  The code that sits after the assertion
would indeed push the sum/difference of a scalar-real pair, as the spec
describes. -/
theorem claimC8_add_sub_assert :
    ins_add [RVal.realV [some 2], RVal.realV [some 1]] = .error .assertFail ∧
    ins_sub [RVal.realV [some 2], RVal.realV [some 1]] = .error .assertFail ∧
    (∀ stack, ins_add stack = .error .assertFail) ∧
    (∀ stack, ins_sub stack = .error .assertFail) ∧
    ins_add_after_assert [RVal.realV [some 2], RVal.realV [some 1]] =
      .ok [RVal.realV [some 3]] ∧
    ins_sub_after_assert [RVal.realV [some 2], RVal.realV [some 1]] =
      .ok [RVal.realV [some (-1)]] := by
  refine ⟨rfl, rfl, fun _ => rfl, fun _ => rfl, ?_, ?_⟩
  · show Except.ok [RVal.realV [some (1 + 2)]] = .ok [RVal.realV [some 3]]
    norm_num
  · show Except.ok [RVal.realV [some (1 - 2)]] = .ok [RVal.realV [some (-1)]]
    norm_num

/-! ## C9: the `isspecial_` guard asserts instead of falling back -/

/-- An environment in which the special `while` has been shadowed by a
closure binding. -/
def shadowEnv : REnv := .ext [("while", RVal.closV 0)] .empty

/-- C9 (counterexample): the claim says a shadowed `isspecial_` guard falls
back to dynamic resolution rather than failing; in the code the guard is a
bare `assert`, so with `while` shadowed by a closure the instruction fails
(assertion failure) — it never falls back, refuting the claim that
`isspecial_` execution never fails. -/
theorem claimC9_counterexample :
    ins_isspecial "while" shadowEnv [] = .error .assertFail ∧
    ¬ (∀ (s : String) (env : REnv) (stack : List RVal),
        ins_isspecial s env stack ≠ .error RError.assertFail) := by
  constructor
  · rfl
  · intro hcl
    exact hcl "while" shadowEnv [] rfl

/-- C9 (amended): the `isspecial_` guard checks with `findVar` that the
binding is a special or builtin and is a no-op on the stack when it is; when
the binding has been shadowed by anything else it trips the `assert` — there
is no fallback to dynamic resolution. -/
theorem claimC9_amended (s : String) (env : REnv) (stack : List RVal) :
    (((findVarR s env).rTypeof = SexpType.SPECIALSXP ∨
        (findVarR s env).rTypeof = SexpType.BUILTINSXP) →
      ins_isspecial s env stack = .ok stack) ∧
    (¬ ((findVarR s env).rTypeof = SexpType.SPECIALSXP ∨
        (findVarR s env).rTypeof = SexpType.BUILTINSXP) →
      ins_isspecial s env stack = .error .assertFail) := by
  constructor
  · intro h
    unfold ins_isspecial
    rw [if_pos h]
  · intro h
    unfold ins_isspecial
    rw [if_neg h]

/-- Witness for the amended C9: an intact special binding passes the guard
untouched; the shadowed binding of `shadowEnv` trips the assertion. -/
theorem claimC9_amended_witness :
    ins_isspecial "while" (.ext [("while", RVal.specialV 3)] .empty) [] =
      .ok [] ∧
    ins_isspecial "while" shadowEnv [] = .error .assertFail := by
  constructor
  · exact (claimC9_amended "while" (.ext [("while", RVal.specialV 3)] .empty) []).1
      (by decide)
  · exact (claimC9_amended "while" shadowEnv []).2 (by decide)

/-! ## C10: branch instructions test pointer identity with the interned
`TRUE`/`FALSE` -/

/-- C10: `brtrue_` (resp. `brfalse_`) pops and takes the jump only when the
popped value is pointer-identical to the interned `R_TrueValue`
(`R_FalseValue`); any other value — including a freshly allocated logical
scalar holding the same truth value — falls through; and `asbool_` pushes
only the two interned values while `lgl_and_`/`lgl_or_` push only the three
interned logical scalars, which is what compiled conditionals rely on. -/
theorem claimC10_branch_canonical :
    (∀ (off : Int) (pc : Nat) (v : RVal) (rest : List RVal), v = RVal.trueV →
      ins_brtrue off pc (v :: rest) = .ok (branchTarget pc off, rest)) ∧
    (∀ (off : Int) (pc : Nat) (v : RVal) (rest : List RVal), v ≠ RVal.trueV →
      ins_brtrue off pc (v :: rest) = .ok ((pc : Int) + 1, rest)) ∧
    (∀ (off : Int) (pc : Nat) (rest : List RVal),
      ins_brtrue off pc (RVal.lglV [some true] :: rest) = .ok ((pc : Int) + 1, rest)) ∧
    (∀ (off : Int) (pc : Nat) (v : RVal) (rest : List RVal), v = RVal.falseV →
      ins_brfalse off pc (v :: rest) = .ok (branchTarget pc off, rest)) ∧
    (∀ (off : Int) (pc : Nat) (v : RVal) (rest : List RVal), v ≠ RVal.falseV →
      ins_brfalse off pc (v :: rest) = .ok ((pc : Int) + 1, rest)) ∧
    (∀ (off : Int) (pc : Nat) (rest : List RVal),
      ins_brfalse off pc (RVal.lglV [some false] :: rest) = .ok ((pc : Int) + 1, rest)) ∧
    (∀ (st : List RVal) (w : List String) (out : List RVal),
      ins_asbool st = .ok (w, out) →
      ∃ rest, out = RVal.trueV :: rest ∨ out = RVal.falseV :: rest) ∧
    (∀ (st out : List RVal), ins_lgl_and st = .ok out →
      ∃ rest, out = RVal.trueV :: rest ∨ out = RVal.falseV :: rest ∨
        out = RVal.naLglV :: rest) ∧
    (∀ (st out : List RVal), ins_lgl_or st = .ok out →
      ∃ rest, out = RVal.trueV :: rest ∨ out = RVal.falseV :: rest ∨
        out = RVal.naLglV :: rest) := by
  refine ⟨?_, ?_, ?_, ?_, ?_, ?_, ?_, ?_, ?_⟩
  · intro off pc v rest hv
    subst hv
    dsimp only [ins_brtrue]
    rw [if_pos rfl]
  · intro off pc v rest hv
    dsimp only [ins_brtrue]
    rw [if_neg hv]
  · intro off pc rest
    dsimp only [ins_brtrue]
    rw [if_neg (by decide)]
  · intro off pc v rest hv
    subst hv
    dsimp only [ins_brfalse]
    rw [if_pos rfl]
  · intro off pc v rest hv
    dsimp only [ins_brfalse]
    rw [if_neg hv]
  · intro off pc rest
    dsimp only [ins_brfalse]
    rw [if_neg (by decide)]
  · intro st w out h
    cases st with
    | nil => cases h
    | cons t rest =>
      dsimp only [ins_asbool] at h
      cases hc : asboolCond t with
      | none => rw [hc] at h; cases h
      | some b =>
        rw [hc] at h
        cases h
        exact ⟨rest, by cases b <;> simp⟩
  · intro st out h
    cases st with
    | nil => cases h
    | cons t2 r =>
      cases r with
      | nil => cases h
      | cons t1 rest =>
        dsimp only [ins_lgl_and] at h
        cases h1 : lgl0 t1 with
        | none => rw [h1] at h; cases h
        | some x1 =>
          cases h2 : lgl0 t2 with
          | none => rw [h1, h2] at h; cases h
          | some x2 =>
            rw [h1, h2] at h
            dsimp only at h
            split at h <;> [skip; split at h] <;> (cases h; exact ⟨rest, by simp⟩)
  · intro st out h
    cases st with
    | nil => cases h
    | cons t2 r =>
      cases r with
      | nil => cases h
      | cons t1 rest =>
        dsimp only [ins_lgl_or] at h
        cases h1 : lgl0 t1 with
        | none => rw [h1] at h; cases h
        | some x1 =>
          cases h2 : lgl0 t2 with
          | none => rw [h1, h2] at h; cases h
          | some x2 =>
            rw [h1, h2] at h
            dsimp only at h
            split at h <;> [skip; split at h] <;> (cases h; exact ⟨rest, by simp⟩)

/-- Witness for C10: the interned `TRUE` takes a `brtrue_` jump, a fresh
logical `TRUE` does not, and an `asbool_` output feeds the branch with an
interned value. -/
theorem claimC10_branch_canonical_witness :
    ins_brtrue 5 0 [RVal.trueV] = .ok (6, []) ∧
    ins_brtrue 5 0 [RVal.lglV [some true]] = .ok (1, []) ∧
    ins_brfalse 5 0 [RVal.lglV [some false]] = .ok (1, []) ∧
    (∃ rest, ([RVal.trueV] : List RVal) = RVal.trueV :: rest ∨
      ([RVal.trueV] : List RVal) = RVal.falseV :: rest) := by
  refine ⟨?_, ?_, ?_, ?_⟩
  · exact claimC10_branch_canonical.1 5 0 RVal.trueV [] rfl
  · exact claimC10_branch_canonical.2.2.1 5 0 []
  · exact claimC10_branch_canonical.2.2.2.2.2.1 5 0 []
  · exact claimC10_branch_canonical.2.2.2.2.2.2.1 [RVal.lglV [some true, some false]]
      [lengthWarnMsg] [RVal.trueV] rfl

/-! ## C2: dispatch order S4, then S3, then normal call -/

/-- C2: `dispatch_` tries the mechanisms in this exact order — S4 only when
the object is an S4 object and the selector has registered methods; S3 via
the host's `usemethod` otherwise or when S4 failed; and only when both fail
is the selector resolved with `findFun` in the current environment and
invoked as a normal call.  The first success determines the result; the
trace of attempted mechanisms shows the later ones are not tried. -/
theorem claimC2_dispatch (env : REnv) (selector : String) (h : DispatchHost) :
    (∀ r, h.isS4obj = true → h.hasMethods = true → h.possibleDispatch = some r →
      doDispatchR env selector h = .ok (r, [Mech.s4])) ∧
    (∀ r, (h.isS4obj = false ∨ h.hasMethods = false ∨ h.possibleDispatch = none) →
      h.usemethodRes = some r →
      doDispatchR env selector h =
        .ok (r, if h.isS4obj && h.hasMethods then [Mech.s4, Mech.s3]
                else [Mech.s3])) ∧
    ((h.isS4obj = false ∨ h.hasMethods = false ∨ h.possibleDispatch = none) →
      h.usemethodRes = none → isFunVal (findFunR selector env) = true →
      doDispatchR env selector h =
        .ok (h.applyRes (findFunR selector env),
             (if h.isS4obj && h.hasMethods then [Mech.s4, Mech.s3]
              else [Mech.s3]) ++ [Mech.fallback])) := by
  refine ⟨?_, ?_, ?_⟩
  · intro r h4 hm hp
    unfold doDispatchR
    rw [h4, hm]
    simp [hp]
  · intro r hdis hu
    unfold doDispatchR
    rcases hdis with h4 | hm | hp
    · rw [h4]; simp [hu]
    · rw [hm]; simp [hu]
    · cases hb : (h.isS4obj && h.hasMethods) <;> simp [hb, hp, hu]
  · intro hdis hu hf
    have hne1 : findFunR selector env ≠ RVal.unboundV := by
      intro he
      rw [he] at hf
      cases hf
    have hne2 : findFunR selector env ≠ RVal.missingArgV := by
      intro he
      rw [he] at hf
      cases hf
    unfold doDispatchR
    rcases hdis with h4 | hm | hp
    · rw [h4]; simp [hu, hne1, hne2, hf]
    · rw [hm]; simp [hu, hne1, hne2, hf]
    · cases hb : (h.isS4obj && h.hasMethods) <;> simp [hb, hp, hu, hne1, hne2, hf]

/-- Witness for C2: an S4 hit returns through S4 alone; with no S4 methods
the S3 path answers (S4 untried); and with both generic mechanisms failing
the selector resolves through `findFun` past a non-function binding and is
invoked as a normal call. -/
theorem claimC2_dispatch_witness :
    doDispatchR (.ext [("print", RVal.closV 7)] .empty) "print"
      ⟨true, true, some (RVal.intV [some 4]), some (RVal.intV [some 5]),
       fun _ => RVal.nilV⟩ = .ok (RVal.intV [some 4], [Mech.s4]) ∧
    doDispatchR (.ext [("print", RVal.closV 7)] .empty) "print"
      ⟨true, false, none, some (RVal.intV [some 5]), fun _ => RVal.nilV⟩ =
      .ok (RVal.intV [some 5], [Mech.s3]) ∧
    doDispatchR (.ext [("print", RVal.strV ["shadow"])]
        (.ext [("print", RVal.closV 7)] .empty)) "print"
      ⟨false, false, none, none, fun c => RVal.vecV (.cons c .nil)⟩ =
      .ok (RVal.vecV (.cons (RVal.closV 7) .nil), [Mech.s3, Mech.fallback]) := by
  refine ⟨?_, ?_, ?_⟩
  · exact (claimC2_dispatch (.ext [("print", RVal.closV 7)] .empty) "print"
      ⟨true, true, some (RVal.intV [some 4]), some (RVal.intV [some 5]),
       fun _ => RVal.nilV⟩).1 (RVal.intV [some 4]) rfl rfl rfl
  · exact (claimC2_dispatch (.ext [("print", RVal.closV 7)] .empty) "print"
      ⟨true, false, none, some (RVal.intV [some 5]), fun _ => RVal.nilV⟩).2.1
      (RVal.intV [some 5]) (Or.inr (Or.inl rfl)) rfl
  · exact (claimC2_dispatch (.ext [("print", RVal.strV ["shadow"])]
        (.ext [("print", RVal.closV 7)] .empty)) "print"
      ⟨false, false, none, none, fun c => RVal.vecV (.cons c .nil)⟩).2.2
      (Or.inl rfl) rfl rfl

/-! ## C7: `call_stack_` placeholder substitution -/

/-- C7 as the claim states it, with no condition on the callee: every
`call_stack_` whose attached AST has the getter placeholder first has the
target substituted. -/
def claimC7Stated : Prop :=
  ∀ (fn : RVal) (tag : Option String) (rest : RArgs) (nargs : Nat)
    (stack : List RVal) (callee target : RVal),
    stack.get? nargs = some callee → 0 < nargs →
    stack.get? (nargs - 1) = some target →
    doCallStackRewrite (.langV fn (.cons getterPlaceholder tag rest)) nargs stack =
      .ok (.langV fn (.cons (quoteWrap target) tag rest))

/-- C7 (counterexample): when the callee is a builtin, `doCallStack` skips
the placeholder rewriting entirely (the guard also requires a special or
closure callee), so the call AST keeps its placeholder — refuting the
unconditional claim. -/
theorem claimC7_counterexample : ¬ claimC7Stated := by
  intro hcl
  have h := hcl (.symV "f") none .nil 1 [RVal.realV [some 7], RVal.builtinV 0]
    (RVal.builtinV 0) (RVal.realV [some 7]) rfl (by decide) rfl
  have h2 : doCallStackRewrite
      (.langV (.symV "f") (.cons getterPlaceholder none .nil)) 1
      [RVal.realV [some 7], RVal.builtinV 0] =
      .ok (.langV (.symV "f") (.cons getterPlaceholder none .nil)) := rfl
  rw [h2] at h
  simp [getterPlaceholder, quoteWrap, RVal.rTypeof] at h

/-- C7 (amended): when a `call_stack_` instruction's attached source AST has
`GETTER_PLACEHOLDER` or `SETTER_PLACEHOLDER` as its first argument *and the
callee is a special or a closure*, the interpreter shallow-duplicates the
AST and substitutes the on-stack target (the deepest of the `nargs`
arguments) — and, for a setter, the top-of-stack value into the last
argument slot tagged `value` — before invoking the callee; a substituted
language or symbol node is wrapped in `quote(...)`. -/
theorem claimC7_amended (fn : RVal) (tag : Option String) (rest : RArgs)
    (nargs : Nat) (stack : List RVal) (callee target : RVal)
    (hcallee : stack.get? nargs = some callee)
    (htype : callee.rTypeof = SexpType.SPECIALSXP ∨
      callee.rTypeof = SexpType.CLOSXP)
    (hn : 0 < nargs)
    (htarget : stack.get? (nargs - 1) = some target) :
    (doCallStackRewrite (.langV fn (.cons getterPlaceholder tag rest)) nargs
        stack = .ok (.langV fn (.cons (quoteWrap target) tag rest))) ∧
    (∀ v stail, stack = v :: stail →
      lastCar (RArgs.cons (quoteWrap target) tag rest) = some setterPlaceholder →
      doCallStackRewrite (.langV fn (.cons setterPlaceholder tag rest)) nargs
        stack =
        .ok (.langV fn (setLastValueCell
          (RArgs.cons (quoteWrap target) tag rest) (quoteWrap v)))) ∧
    (∀ v, (v.rTypeof = SexpType.LANGSXP ∨ v.rTypeof = SexpType.SYMSXP) →
      quoteWrap v = .langV (.symV "quote") (.cons v none .nil)) ∧
    (∀ v, ¬ (v.rTypeof = SexpType.LANGSXP ∨ v.rTypeof = SexpType.SYMSXP) →
      quoteWrap v = v) := by
  have hne : ¬ ((RArgs.cons getterPlaceholder tag rest).car? =
      some setterPlaceholder) := by
    intro hEq
    have h2 : getterPlaceholder = setterPlaceholder := by
      simpa [RArgs.car?] using hEq
    exact absurd h2 (by decide)
  refine ⟨?_, ?_, ?_, ?_⟩
  · unfold doCallStackRewrite
    rw [hcallee]
    dsimp only
    rw [if_pos ⟨htype, Or.inl rfl⟩, if_neg (show ¬ nargs = 0 by omega)]
    rw [htarget]
    dsimp only
    rw [if_neg hne]
  · intro v stail hstack hlast
    unfold doCallStackRewrite
    rw [hcallee]
    dsimp only
    rw [if_pos ⟨htype, Or.inr rfl⟩, if_neg (show ¬ nargs = 0 by omega)]
    rw [htarget]
    dsimp only
    rw [if_pos (show (RArgs.cons setterPlaceholder tag rest).car? =
      some setterPlaceholder from rfl)]
    rw [if_pos hlast, hstack]
  · intro v hv
    unfold quoteWrap
    rw [if_pos hv]
  · intro v hv
    unfold quoteWrap
    rw [if_neg hv]

/-- Witness for the amended C7: a getter call on a closure callee gets the
on-stack target substituted with a `quote(...)` wrapper (the target being a
symbol), and a setter call on a special callee gets both the target and the
top-of-stack value substituted, the value landing in the last slot tagged
`value`. -/
theorem claimC7_amended_witness :
    doCallStackRewrite
      (.langV (.symV "[[") (.cons getterPlaceholder none
        (.cons (RVal.intV [some 2]) none .nil))) 2
      [RVal.intV [some 2], RVal.symV "x", RVal.closV 3] =
      .ok (.langV (.symV "[[")
        (.cons (.langV (.symV "quote") (.cons (RVal.symV "x") none .nil)) none
          (.cons (RVal.intV [some 2]) none .nil))) ∧
    doCallStackRewrite
      (.langV (.symV "[[<-") (.cons setterPlaceholder none
        (.cons setterPlaceholder (some valueTag) .nil))) 2
      [RVal.realV [some 9], RVal.strV ["lst"], RVal.specialV 5] =
      .ok (.langV (.symV "[[<-")
        (.cons (RVal.strV ["lst"]) none
          (.cons (RVal.realV [some 9]) (some valueTag) .nil))) := by
  constructor
  · exact (claimC7_amended (.symV "[[") none
      (.cons (RVal.intV [some 2]) none .nil) 2
      [RVal.intV [some 2], RVal.symV "x", RVal.closV 3]
      (RVal.closV 3) (RVal.symV "x") rfl (Or.inr rfl) (by decide) rfl).1
  · exact (claimC7_amended (.symV "[[<-") none
      (.cons setterPlaceholder (some valueTag) .nil) 2
      [RVal.realV [some 9], RVal.strV ["lst"], RVal.specialV 5]
      (RVal.specialV 5) (RVal.strV ["lst"]) rfl (Or.inl rfl) (by decide)
      rfl).2.1 (RVal.realV [some 9]) [RVal.strV ["lst"], RVal.specialV 5]
      rfl rfl

/-! ## C5: the compiled form of `while(cond) body` -/

/-- The `while` emission sequence exactly as the claim words it:
`beginloop_` targeting the post-loop label, the loop label, the compiled
condition, `asbool_`, `brfalse_` to the post-loop label, the compiled body,
`pop_`, `br_` back to the loop label, the post-loop label, `endcontext_`,
`push_ Nil`, `invisible_` — with no leading guard. -/
def specWhileSeq (ccond cbody : List BCL) (loopL endL : Nat) : List BCL :=
  [.beginloop endL, .label loopL] ++ ccond ++ [.asbool, .brfalse endL] ++
  cbody ++ [.popB, .br loopL, .label endL, .endcontext, .pushV .nilV,
            .invisible]

/-- C5 exactly as the claim states it: compiling `while(cond) body` emits
exactly that sequence (and nothing more). -/
def claimC5Stated : Prop :=
  ∀ (cond body : RAst) (tagc tagb : Option String) (st : CompSt) (fuel : Nat)
    (code : List BCL) (st2 : CompSt),
    compileExpr fuel
      (.lang (.sym "while") (.cons cond tagc (.cons body tagb .nil))) st =
      some (code, st2) →
    ∃ ccond cbody loopL endL, code = specWhileSeq ccond cbody loopL endL

/-- The emission the compiler actually produces for `while(TRUE) 1`. -/
def whileCexCode : List BCL :=
  [.isspecial "while", .beginloop 1, .label 0, .pushV .trueV, .asbool,
   .brfalse 1, .pushV (.realV [some 1]), .popB, .br 0, .label 1, .endcontext,
   .pushV .nilV, .invisible]

/-- C5 (counterexample): compiling `while(TRUE) 1` emits `whileCexCode`,
which starts with the `isspecial_` guard, not with `beginloop_` — so the
emission is not exactly the claimed sequence. -/
theorem claimC5_counterexample : ¬ claimC5Stated := by
  intro hcl
  obtain ⟨c1, c2, l, e, heq⟩ := hcl (.cnst .trueV) (.cnst (.realV [some 1]))
    none none ⟨0, 0, [], []⟩ 5 whileCexCode ⟨2, 0, [], []⟩ (by rfl)
  have hhead := congrArg List.head? heq
  simp [whileCexCode, specWhileSeq] at hhead

/-- C5 (amended): for every `while(cond) body` the compiler emits exactly
the `isspecial_ while` guard followed by the claimed sequence: `beginloop_`
targeting the post-loop label, the loop label, the compiled condition
(compiled with the loop pushed), `asbool_`, `brfalse_` to the post-loop
label, the compiled body, `pop_`, `br_` to the loop label, the post-loop
label, `endcontext_`, `push_ Nil`, `invisible_`. -/
theorem claimC5_amended (cond body : RAst) (tagc tagb : Option String)
    (st st2 st3 : CompSt) (fuel : Nat) (cc cb : List BCL)
    (hc : compileExpr fuel cond
      ⟨st.nextLabel + 2, st.nextProm,
       (st.nextLabel, st.nextLabel + 1) :: st.loops, st.promStreams⟩ =
      some (cc, st2))
    (hb : compileExpr fuel body st2 = some (cb, st3)) :
    compileSpecialCall (fuel + 1) "while"
      (.cons cond tagc (.cons body tagb .nil)) st =
      some (some ([.isspecial "while"] ++
              specWhileSeq cc cb st.nextLabel (st.nextLabel + 1)),
            ⟨st3.nextLabel, st3.nextProm, st3.loops.tail, st3.promStreams⟩) := by
  unfold compileSpecialCall
  simp only [RAstArgs.length, String.reduceEq, reduceIte, false_and, if_false,
    and_true, and_false, Nat.reduceAdd]
  rw [hc]
  dsimp only
  rw [hb]
  rfl

/-- Witness for the amended C5: `while(TRUE) 1` again, with the two
sub-compilations supplied concretely. -/
theorem claimC5_amended_witness :
    compileSpecialCall 3 "while"
      (.cons (.cnst .trueV) none (.cons (.cnst (.realV [some 1])) none .nil))
      ⟨0, 0, [], []⟩ =
      some (some ([.isspecial "while"] ++
              specWhileSeq [.pushV .trueV] [.pushV (.realV [some 1])] 0 1),
            ⟨2, 0, [], []⟩) :=
  claimC5_amended (.cnst .trueV) (.cnst (.realV [some 1])) none none
    ⟨0, 0, [], []⟩ ⟨2, 0, [(0, 1)], []⟩ ⟨2, 0, [(0, 1)], []⟩ 2
    [.pushV .trueV] [.pushV (.realV [some 1])] rfl rfl

/-! ## C1: stack balance of `evalRirCode` -/

/-- C1 exactly as the claim states it: for every code object, every host
callback behaviour, every environment and argument count (arguments reach
the frame through its environment), a normally-completing `evalRirCode`
run ends with the stack one longer than at entry. -/
def claimC1Stated : Prop :=
  ∀ (host : Host) (code : List Instr) (env : REnv) (s₀ : List RVal)
    (fuel : Nat) (stk : List RVal),
    run host code fuel ⟨0, s₀, env, [], 0⟩ = some (.ok stk) →
    stk.length = s₀.length + 1

/-- A host none of whose callbacks returns normally; the counterexample
run makes no host call, so any host would do. -/
def trivHost : Host :=
  { call := fun _ => .unwind
    isObj := fun _ => false
    maybeShared := fun _ => true
    namesAttr := fun _ => false
    anyAttr := fun _ => false
    astOf := fun _ => .nilV }

/-- A code object whose stream is not stack-balanced: two pushes before
`ret_`. -/
def unbalancedCode : List Instr := [.push .trueV, .push .trueV, .ret]

/-- C1 (counterexample): `evalRirCode` itself enforces no balance — running
`unbalancedCode` from an empty stack reaches `ret_` normally with 2 values
on the stack, not 1, so the claim is false for arbitrary code objects. -/
theorem claimC1_counterexample : ¬ claimC1Stated := by
  intro hcl
  have h := hcl trivHost unbalancedCode REnv.empty [] 4
    [RVal.trueV, RVal.trueV] (by rfl)
  simp at h

/-- C1 (amended): for every code object whose instruction stream admits a
consistent stack-height annotation — entry height 0, per-instruction
`(pops, pushes)` transfer, height exactly 1 at each `ret_`, which is what
the code-stream builder's abstract interpretation establishes for compiled
code — every environment and every host callback behaviour (including
callbacks that non-locally `break`/`next` into the frame's loop contexts,
restoring the stack at the `beginloop_` `SETJMP`): if the run completes
normally (reaches `ret_`), the value stack is exactly one longer than at
entry, the extra top slot holding the result that `ret_` hands back. -/
theorem claimC1_amended (host : Host) (code : List Instr)
    (H : List (Option Nat)) (env : REnv) (s₀ : List RVal) (fuel : Nat)
    (stk : List RVal) (hbal : stackBalanced code H = true)
    (hrun : run host code fuel ⟨0, s₀, env, [], 0⟩ = some (.ok stk)) :
    stk.length = s₀.length + 1 ∧ ∃ res rest, stk = res :: rest := by
  have hlen := run_height hbal fuel ⟨0, s₀, env, [], 0⟩
    (InvM_start hbal env s₀) stk hrun
  refine ⟨hlen, ?_⟩
  cases stk with
  | nil => simp at hlen
  | cons res rest => exact ⟨res, rest, rfl⟩

/-- A host whose first callback (the call at pc 5 of `loopCode`) receives
a non-local `break`, as `while(TRUE) f()` does when `f` breaks out of the
loop through the frame's loop context. -/
def loopHost : Host :=
  { call := fun _ => .ljBreak
    isObj := fun _ => false
    maybeShared := fun _ => true
    namesAttr := fun _ => false
    anyAttr := fun _ => false
    astOf := fun _ => .nilV }

/-- A balanced code object in the shape the compiler emits for a `while`
loop whose body is a call: `beginloop_` (break target = the
`endcontext_`), the condition (`TRUE`), `asbool_`, `brfalse_` out, the
callee push, `call_`, `pop_`, `br_` back, then `endcontext_`, `push_`
of Nil, `invisible_`, `ret_`. -/
def loopCode : List Instr :=
  [.beginloop 7, .push .trueV, .asbool, .brfalse 4,
   .push (.closureV .nilV .nilV), .callI, .pop, .br (-7),
   .endcontext, .push .nilV, .invisible, .ret]

/-- Heights for `loopCode`: the annotation the builder's abstract
interpretation would compute (the context store occupies one slot for the
whole loop; both `beginloop_` successors sit at height 1). -/
def loopHeights : List (Option Nat) :=
  [some 0, some 1, some 2, some 2, some 1, some 2, some 2, some 1,
   some 1, some 0, some 1, some 1]

/-- Witness for the amended C1: `loopCode` is statically balanced, and a
run in which the host call longjmps a loop `break` into the frame —
exercising `beginloop_`'s context push, the `SETJMP` stack restore and
`endcontext_`'s pop — completes normally with exactly one value, the
result, on the stack. -/
theorem claimC1_amended_witness :
    ([RVal.nilV] : List RVal).length = ([] : List RVal).length + 1 ∧
      ∃ res rest, ([RVal.nilV] : List RVal) = res :: rest :=
  claimC1_amended loopHost loopCode loopHeights REnv.empty [] 12 [RVal.nilV]
    (by decide) (by rfl)

end Rir
